import Mathlib

/-!
# Verification development for `riscv/sim.cc`

A shallow embedding of the simulator driver: the bounds-checked loader
adapter (`memory_t::write`), the interleaved stepping scheduler
(`sim_t::step_all`), the debugger readers (`get_pc`, `get_reg`, `get_mem`)
and the interactive console (`sim_t::run` and its handlers).

Conventions.
* `size_t`, `reg_t` and `long` are 64 bits wide, `int` is 32 bits wide; they
  are embedded as `Nat` / `Int` with explicit reduction modulo `2 ^ 64`
  wherever the C arithmetic can wrap.
* `std::string` is a list of characters, `std::vector<std::string>` a list
  of such lists.
* Loops that need not terminate take a `fuel` argument; when the fuel runs
  out the result is `outcome.running` with the state reached so far.
-/

namespace Sim

/-! ## Machine words -/

/-- Number of values of a 64-bit machine word (`size_t`, `reg_t`). -/
def WORD : Nat := 2 ^ 64

/-- Largest value of the C type `long`. -/
def LONG_MAX : Int := 2 ^ 63 - 1

/-- Smallest value of the C type `long`. -/
def LONG_MIN : Int := -(2 ^ 63)

/-- Conversion of a signed integer (`int` or `long`) to `size_t` / `reg_t`:
reduction modulo `2 ^ 64`. -/
def to_word (x : Int) : Nat := (x % (2 ^ 64 : Int)).toNat

/-- Conversion of a `long` to `int`: the low 32 bits, read as two's
complement. -/
def to_int (x : Int) : Int := (x + 2 ^ 31) % 2 ^ 32 - 2 ^ 31

/-- One byte of target memory. -/
abbrev byte := Fin 256

/-- A C string (`std::string`, `char*`). -/
abbrev cstring := List Char

/-! ## C library: `isspace`, `strtol`, `atoi`, `strtok`, `memcpy`, `memset` -/

/-- The C locale `isspace`: space, `\t`, `\n`, `\v`, `\f`, `\r`. -/
def isspace (c : Char) : Bool :=
  c.toNat == 32 || (9 ≤ c.toNat && c.toNat ≤ 13)

/-- Value of a character as a digit in some base up to 36, as `strtol`
reads it. -/
def digit_val (c : Char) : Option Nat :=
  let n := c.toNat
  if 48 ≤ n ∧ n ≤ 57 then some (n - 48)
  else if 97 ≤ n ∧ n ≤ 122 then some (n - 97 + 10)
  else if 65 ≤ n ∧ n ≤ 90 then some (n - 65 + 10)
  else none

/-- The digit loop of `strtol`: accumulates the longest prefix of valid
digits of the base. -/
def strtol_digits (base : Nat) : List Char → Nat → Nat
  | [], acc => acc
  | c :: cs, acc =>
    match digit_val c with
    | some d => if d < base then strtol_digits base cs (acc * base + d) else acc
    | none => acc

/-- Optional sign of a number, as `strtol` reads it: whether it is negative,
and the rest of the text. -/
def strtol_sign : List Char → Bool × List Char
  | c :: cs =>
    if c.toNat = 45 then (true, cs)
    else if c.toNat = 43 then (false, cs)
    else (false, c :: cs)
  | [] => (false, [])

/-- Optional `0x` / `0X` prefix that `strtol` skips in base 16. -/
def strtol_skip_0x (base : Nat) : List Char → List Char
  | c0 :: c1 :: cs =>
    if base = 16 ∧ c0.toNat = 48 ∧ (c1.toNat = 120 ∨ c1.toNat = 88) then cs
    else c0 :: c1 :: cs
  | cs => cs

/-- The C library `strtol(s, NULL, base)` for base 10 and 16: leading white
space, an optional sign, (base 16) an optional `0x`, then digits; the value
is clamped to the range of `long`. -/
def strtol (s : cstring) (base : Nat) : Int :=
  let r := strtol_sign (s.dropWhile isspace)
  let v : Int := (strtol_digits base (strtol_skip_0x base r.2) 0 : Nat)
  if r.1 then max (-v) LONG_MIN else min v LONG_MAX

/-- The C library `atoi(s)`, as glibc has it: `(int) strtol(s, NULL, 10)`. -/
def atoi (s : cstring) : Int := to_int (strtol s 10)

/-- The tokens `strtok(s, " ")` / `strtok(NULL, " ")` deliver one after the
other: the maximal runs of characters other than the space. `cur` is the
token being read, in reverse. -/
def strtok_all : List Char → List Char → List cstring
  | [], cur => if cur.isEmpty then [] else [cur.reverse]
  | c :: cs, cur =>
    if c.toNat = 32 then
      (if cur.isEmpty then strtok_all cs [] else cur.reverse :: strtok_all cs [])
    else strtok_all cs (c :: cur)

/-- The C library `memcpy(mem + dst, src, n)` on a buffer `mem`: `n` byte
stores, `mem[dst + i] = src[i]`. -/
def memcpy (mem : List byte) (dst : Nat) (src : Nat → byte) : Nat → List byte
  | 0 => mem
  | n + 1 => (memcpy mem dst src n).set (dst + n) (src n)

/-- The C library `memset(mem + dst, c, n)` on a buffer `mem`: `n` byte
stores, `mem[dst + i] = c`. -/
def memset (mem : List byte) (dst : Nat) (c : byte) : Nat → List byte
  | 0 => mem
  | n + 1 => (memset mem dst c n).set (dst + n) c

/-! ## The loader adapter `memory_t` -/

/-- The class `memory_t`: a view of the target memory, `size` bytes at
`mem`. -/
structure memory_t where
  mem : List byte
  size : Nat
deriving DecidableEq

/-- How a call of `memory_t::write` ends. -/
inductive write_result
  /-- the `demand` failed: the process is terminated with the message -/
  | fatal (msg : String)
  /-- the call returned; the memory afterwards -/
  | ok (m : memory_t)
  /-- the `demand` passed although the block does not fit the buffer:
  `memcpy` / `memset` store past its end (undefined behaviour) -/
  | overrun
deriving DecidableEq

/-- Modelled from the spec: the macro `demand(cond, msg)` of `common.h`,
which is not among the sources; a failed demand is a fatal, unrecoverable
error that terminates the process with the message. Here it runs `k` when
the condition holds. -/
def demand (cond : Bool) (msg : String) (k : write_result) : write_result :=
  if cond then k else write_result.fatal msg

/-- The method `memory_t::write(addr, bytes, src)`. `addr + bytes` is a
`size_t` sum and wraps modulo `2 ^ 64`. `src` is the source pointer, `none`
for `NULL`. -/
def memory_t.write (m : memory_t) (addr bytes : Nat) (src : Option (Nat → byte)) :
    write_result :=
  demand (decide (addr < m.size) && decide ((addr + bytes) % WORD ≤ m.size)) "out of bounds!"
    (if addr + bytes ≤ m.mem.length then
      match src with
      | some f => write_result.ok { m with mem := memcpy m.mem addr f bytes }
      | none => write_result.ok { m with mem := memset m.mem addr 0 bytes }
    else write_result.overrun)

/-! ## The simulator state -/

/-- The exception type `trap_t`. Only `trap_illegal_instruction` is named in
`sim.cc`; the rest of the taxonomy (`trap.h`) is kept by its number. -/
inductive trap_t
  | illegal_instruction
  | other (cause : Nat)
deriving DecidableEq

/-- What `sim.cc` sees of a core (`processor_t`): its identity, its program
counter and its general registers `R[0 .. NGPR-1]`. -/
structure processor_t where
  id : Nat
  pc : Nat
  R : List Nat
deriving DecidableEq

/-- A record of one call `procs[proc].step(n, noisy)`. -/
structure step_call where
  proc : Nat
  n : Nat
  noisy : Bool
deriving DecidableEq

/-- The class `sim_t`: the cores `procs[0 .. nprocs-1]` and the target
memory `mem[0 .. memsz-1]`; `nprocs` and `memsz` are the lengths of the two
arrays, as the constructor sets them up. Two observation fields are added:
`calls`, the step calls issued so far, oldest first, and `out`, the
characters written to standard output so far. -/
structure sim_t where
  procs : List processor_t
  mem : List byte
  calls : List step_call
  out : List Char
deriving DecidableEq

/-- The field `nprocs`, an `int`. -/
def sim_t.nprocs (s : sim_t) : Int := (s.procs.length : Int)

/-- The field `memsz`. -/
def sim_t.memsz (s : sim_t) : Nat := s.mem.length

/-- The execution engine of a core, `processor_t::step(n, noisy)`, is
external to `sim.cc`: it is a parameter of the embedding. A call updates the
core and the shared memory and either returns (`none`) or throws a
`trap_t`. -/
structure core_model where
  step : processor_t → List byte → Nat → Bool → processor_t × List byte × Option trap_t

/-- How the execution of a piece of `sim.cc` ends, with the simulator state
at that point. -/
inductive outcome (α : Type)
  /-- normal return with a value -/
  | ret (a : α) (s : sim_t)
  /-- an exception `trap_t` propagates out -/
  | thrown (t : trap_t) (s : sim_t)
  /-- the process has called `exit(status)` -/
  | exited (status : Int) (s : sim_t)
  /-- an array was indexed outside its bounds (undefined behaviour) -/
  | undefined (s : sim_t)
  /-- still executing when the fuel ran out -/
  | running (s : sim_t)
deriving DecidableEq

/-- The simulator state an outcome carries. -/
def outcome.state {α : Type} : outcome α → sim_t
  | outcome.ret _ s => s
  | outcome.thrown _ s => s
  | outcome.exited _ s => s
  | outcome.undefined s => s
  | outcome.running s => s

/-- Sequencing: `k` runs only after a normal return. -/
def outcome.bind {α β : Type} (x : outcome α) (k : α → sim_t → outcome β) : outcome β :=
  match x with
  | outcome.ret a s => k a s
  | outcome.thrown t s => outcome.thrown t s
  | outcome.exited c s => outcome.exited c s
  | outcome.undefined s => outcome.undefined s
  | outcome.running s => outcome.running s

/-- The block `try { ... } catch(trap_t t) {}`: a trap thrown inside is
discarded and execution goes on after the block. -/
def try_catch (x : outcome Unit) : outcome Unit :=
  match x with
  | outcome.thrown _ s => outcome.ret () s
  | o => o

/-! ## The scheduler -/

/-- The call `procs[i].step(n, noisy)` for an `int` index `i`. The call is
recorded, then the core runs. An index outside the array is undefined
behaviour. -/
def proc_step (cm : core_model) (i : Int) (n : Nat) (noisy : Bool) (s : sim_t) :
    outcome Unit :=
  match i with
  | Int.ofNat k =>
    match s.procs[k]? with
    | some p =>
      let r := cm.step p s.mem n noisy
      let s1 : sim_t :=
        { s with procs := s.procs.set k r.1, mem := r.2.1,
                 calls := s.calls ++ [{ proc := k, n := n, noisy := noisy }] }
      match r.2.2 with
      | none => outcome.ret () s1
      | some t => outcome.thrown t s1
    | none => outcome.undefined s
  | Int.negSucc _ => outcome.undefined s

/-- The inner loop of `step_all`,
`for(int i = 0; i < nprocs; i++) procs[i].step(interleave, noisy);`,
from index `i` on, `k` being the number of indices left. -/
def step_round (cm : core_model) (interleave : Nat) (noisy : Bool) :
    Nat → Nat → sim_t → outcome Unit
  | 0, _, s => outcome.ret () s
  | k + 1, i, s =>
    (proc_step cm (i : Int) interleave noisy s).bind
      (fun _ s1 => step_round cm interleave noisy k (i + 1) s1)

/-- The outer loop of `step_all`, `for(size_t j = 0; j < n; j+=interleave)`,
from counter value `j` on. The counter is a `size_t`: it advances modulo
`2 ^ 64`. -/
def step_all_loop (cm : core_model) (n interleave : Nat) (noisy : Bool) :
    Nat → Nat → sim_t → outcome Unit
  | 0, _, s => outcome.running s
  | fuel + 1, j, s =>
    if j < n then
      (step_round cm interleave noisy s.procs.length 0 s).bind
        (fun _ s1 => step_all_loop cm n interleave noisy fuel ((j + interleave) % WORD) s1)
    else outcome.ret () s

/-- The method `sim_t::step_all(n, interleave, noisy)`. -/
def step_all (cm : core_model) (fuel : Nat) (n interleave : Nat) (noisy : Bool) (s : sim_t) :
    outcome Unit :=
  step_all_loop cm n interleave noisy fuel 0 s

/-! ## The debugger readers -/

/-- The element `procs[p]` for an `int` index `p`; `none` when the index is
outside the array. -/
def proc_at (s : sim_t) (p : Int) : Option processor_t :=
  match p with
  | Int.ofNat k => s.procs[k]?
  | Int.negSucc _ => none

/-- The element `R[r]` of a core for an `int` index `r`; `none` when the
index is outside the register file. -/
def reg_at (c : processor_t) (r : Int) : Option Nat :=
  match r with
  | Int.ofNat k => c.R[k]?
  | Int.negSucc _ => none

/-- The method `sim_t::get_pc(args)`. -/
def get_pc (s : sim_t) (args : List cstring) : outcome Nat :=
  if args.length ≠ 1 then outcome.thrown trap_t.illegal_instruction s
  else
    let p := atoi (args.getD 0 [])
    if p ≥ s.nprocs then outcome.thrown trap_t.illegal_instruction s
    else
      match proc_at s p with
      | some c => outcome.ret c.pc s
      | none => outcome.undefined s

/-- The method `sim_t::get_reg(args)`. The constant `NGPR`, the number of
general registers, is declared outside `sim.cc` and is a parameter here. -/
def get_reg (NGPR : Nat) (s : sim_t) (args : List cstring) : outcome Nat :=
  if args.length ≠ 2 then outcome.thrown trap_t.illegal_instruction s
  else
    let p := atoi (args.getD 0 [])
    let r := atoi (args.getD 1 [])
    if p ≥ s.nprocs ∨ r ≥ (NGPR : Int) then outcome.thrown trap_t.illegal_instruction s
    else
      match proc_at s p with
      | some c =>
        match reg_at c r with
        | some v => outcome.ret v s
        | none => outcome.undefined s
      | none => outcome.undefined s

/-- Value of a sequence of bytes read as a little-endian unsigned number. -/
def le_value : List byte → Nat
  | [] => 0
  | b :: bs => b.val + 256 * le_value bs

/-- Modelled from the spec: the loads `mmu_t::load_uint8`, `load_uint16`,
`load_uint32`, `load_uint64` of `mmu.h`, which is not among the sources. A
load of `width` bytes at `addr` reads the bytes `addr .. addr + width - 1`
of the Address Space as a little-endian unsigned value, widened with zeros
to a `reg_t`; an access with `addr + width > memsz` faults with a Trap, the
same way as `reg`. -/
def mmu_load (mem : List byte) (memsz : Nat) (width addr : Nat) : Except trap_t Nat :=
  if addr + width ≤ memsz then Except.ok (le_value ((mem.drop addr).take width))
  else Except.error trap_t.illegal_instruction

/-- The load `mmu_t::load_uint64`. -/
def load_uint64 (mem : List byte) (memsz addr : Nat) : Except trap_t Nat :=
  mmu_load mem memsz 8 addr

/-- The load `mmu_t::load_uint32`. -/
def load_uint32 (mem : List byte) (memsz addr : Nat) : Except trap_t Nat :=
  mmu_load mem memsz 4 addr

/-- The load `mmu_t::load_uint16`. -/
def load_uint16 (mem : List byte) (memsz addr : Nat) : Except trap_t Nat :=
  mmu_load mem memsz 2 addr

/-- The load `mmu_t::load_uint8`. -/
def load_uint8 (mem : List byte) (memsz addr : Nat) : Except trap_t Nat :=
  mmu_load mem memsz 1 addr

/-- The `switch(addr % 8)` of `sim_t::get_mem`, on the memory `mem`,
`memsz`. -/
def get_mem_switch (mem : List byte) (memsz addr : Nat) : Except trap_t Nat :=
  match addr % 8 with
  | 0 => load_uint64 mem memsz addr
  | 4 => load_uint32 mem memsz addr
  | 2 => load_uint16 mem memsz addr
  | 6 => load_uint16 mem memsz addr
  | _ => load_uint8 mem memsz addr

/-- The method `sim_t::get_mem(args)`. -/
def get_mem (s : sim_t) (args : List cstring) : outcome Nat :=
  if args.length ≠ 1 then outcome.thrown trap_t.illegal_instruction s
  else
    let addr := to_word (strtol (args.getD 0 []) 16)
    match get_mem_switch s.mem s.memsz addr with
    | Except.ok val => outcome.ret val s
    | Except.error t => outcome.thrown t s

/-- The method `sim_t::load_elf`, as far as `sim.cc` has it: the loader
adapter over the simulator's memory, `memory_t loader(mem, memsz)`. The ELF
reader that then calls `loader.write` is external. -/
def sim_t.loader (s : sim_t) : memory_t := { mem := s.mem, size := s.memsz }

/-! ## The console handlers -/

/-- Lower-case hexadecimal digit of a value below 16. -/
def hex_digit (d : Nat) : Char :=
  if d < 10 then Char.ofNat (48 + d) else Char.ofNat (87 + d)

/-- The text `printf("0x%016llx\n", (unsigned long long) v)` writes. -/
def printf_hex (v : Nat) : List Char :=
  ['0', 'x'] ++ ((List.range 16).reverse.map (fun i => hex_digit ((v % WORD) / 16 ^ i % 16)))
    ++ [Char.ofNat 10]

/-- The loop `while(1) step_all(1,1,noisy);` of `interactive_run`. -/
def run_forever (cm : core_model) (noisy : Bool) : Nat → sim_t → outcome Unit
  | 0, s => outcome.running s
  | fuel + 1, s =>
    (step_all cm (fuel + 1) 1 1 noisy s).bind (fun _ s1 => run_forever cm noisy fuel s1)

/-- The method `sim_t::interactive_run(args, noisy)`. The `int` that `atoi`
returns is converted to the `size_t` parameter of `step_all`. -/
def interactive_run (cm : core_model) (fuel : Nat) (args : List cstring) (noisy : Bool)
    (s : sim_t) : outcome Unit :=
  if args.length ≠ 0 then step_all cm fuel (to_word (atoi (args.getD 0 []))) 1 noisy s
  else run_forever cm noisy fuel s

/-- The method `sim_t::interactive_run_noisy`. -/
def interactive_run_noisy (cm : core_model) (fuel : Nat) (args : List cstring) (s : sim_t) :
    outcome Unit :=
  interactive_run cm fuel args true s

/-- The method `sim_t::interactive_run_silent`. -/
def interactive_run_silent (cm : core_model) (fuel : Nat) (args : List cstring) (s : sim_t) :
    outcome Unit :=
  interactive_run cm fuel args false s

/-- The loop `while(1) procs[p].step(1,noisy);` of `interactive_run_proc`. -/
def run_proc_forever (cm : core_model) (p : Int) (noisy : Bool) : Nat → sim_t → outcome Unit
  | 0, s => outcome.running s
  | fuel + 1, s =>
    (proc_step cm p 1 noisy s).bind (fun _ s1 => run_proc_forever cm p noisy fuel s1)

/-- The method `sim_t::interactive_run_proc(a, noisy)`. The `int` that
`atoi` returns for the count is converted to the `size_t` parameter of
`processor_t::step`. -/
def interactive_run_proc (cm : core_model) (fuel : Nat) (a : List cstring) (noisy : Bool)
    (s : sim_t) : outcome Unit :=
  if a.length = 0 then outcome.ret () s
  else
    let p := atoi (a.getD 0 [])
    if p ≥ s.nprocs then outcome.ret () s
    else if a.length = 2 then proc_step cm p (to_word (atoi (a.getD 1 []))) noisy s
    else run_proc_forever cm p noisy fuel s

/-- The method `sim_t::interactive_run_proc_noisy`. -/
def interactive_run_proc_noisy (cm : core_model) (fuel : Nat) (args : List cstring)
    (s : sim_t) : outcome Unit :=
  interactive_run_proc cm fuel args true s

/-- The method `sim_t::interactive_run_proc_silent`. -/
def interactive_run_proc_silent (cm : core_model) (fuel : Nat) (args : List cstring)
    (s : sim_t) : outcome Unit :=
  interactive_run_proc cm fuel args false s

/-- The method `sim_t::interactive_quit`: `exit(0)`. -/
def interactive_quit (_args : List cstring) (s : sim_t) : outcome Unit :=
  outcome.exited 0 s

/-- The method `sim_t::interactive_reg`. -/
def interactive_reg (NGPR : Nat) (args : List cstring) (s : sim_t) : outcome Unit :=
  (get_reg NGPR s args).bind
    (fun v s1 => outcome.ret () { s1 with out := s1.out ++ printf_hex v })

/-- The method `sim_t::interactive_mem`. -/
def interactive_mem (args : List cstring) (s : sim_t) : outcome Unit :=
  (get_mem s args).bind
    (fun v s1 => outcome.ret () { s1 with out := s1.out ++ printf_hex v })

/-- The reader the loop of `interactive_until` polls, chosen by `args[0]`;
`none` for a subject that is none of `reg`, `pc`, `mem` (the loop then
returns). -/
def until_reader (NGPR : Nat) (subject : cstring) (args2 : List cstring) (s : sim_t) :
    Option (outcome Nat) :=
  if subject = ['r', 'e', 'g'] then some (get_reg NGPR s args2)
  else if subject = ['p', 'c'] then some (get_pc s args2)
  else if subject = ['m', 'e', 'm'] then some (get_mem s args2)
  else none

/-- The loop `while(1)` of `interactive_until`. -/
def until_loop (cm : core_model) (NGPR : Nat) (subject : cstring) (args2 : List cstring)
    (val : Nat) : Nat → sim_t → outcome Unit
  | 0, s => outcome.running s
  | fuel + 1, s =>
    match until_reader NGPR subject args2 s with
    | none => outcome.ret () s
    | some rd =>
      rd.bind (fun current s1 =>
        if current = val then outcome.ret () s1
        else
          (step_all cm (fuel + 1) 1 1 false s1).bind
            (fun _ s2 => until_loop cm NGPR subject args2 val fuel s2))

/-- The method `sim_t::interactive_until(args)`. `val` is the last argument
read by `strtol` in base 16 and converted to `reg_t`; `args2` is the
arguments between the first and the last. -/
def interactive_until (cm : core_model) (NGPR : Nat) (fuel : Nat) (args : List cstring)
    (s : sim_t) : outcome Unit :=
  if args.length < 3 then outcome.ret () s
  else
    let val := to_word (strtol (args.getD (args.length - 1) []) 16)
    let args2 := (args.drop 1).take (args.length - 2)
    until_loop cm NGPR (args.getD 0 []) args2 val fuel s

/-! ## The console loop `sim_t::run` -/

/-- The table `funcs` that `run` builds: the handler bound to a command
name, if any. -/
def funcs (cm : core_model) (NGPR : Nat) (fuel : Nat) (cmd : cstring) :
    Option (List cstring → sim_t → outcome Unit) :=
  if cmd = ['r'] then some (interactive_run_noisy cm fuel)
  else if cmd = ['r', 's'] then some (interactive_run_silent cm fuel)
  else if cmd = ['r', 'p'] then some (interactive_run_proc_noisy cm fuel)
  else if cmd = ['r', 'p', 's'] then some (interactive_run_proc_silent cm fuel)
  else if cmd = ['r', 'e', 'g'] then some (interactive_reg NGPR)
  else if cmd = ['m', 'e', 'm'] then some (interactive_mem)
  else if cmd = ['u', 'n', 't', 'i', 'l'] then some (interactive_until cm NGPR fuel)
  else if cmd = ['q'] then some interactive_quit
  else none

/-- The characters `std::cin.getline(s, sizeof(s)-1)` stores in the buffer
`char s[128]` for an input line (given without its newline): at most 126 of
them, followed by a NUL. -/
def getline (line : List Char) : List Char := line.take 126

/-- The C string a character buffer holds: the characters before the first
NUL. -/
def c_str (buf : List Char) : List Char := buf.takeWhile (fun c => decide (c.toNat ≠ 0))

/-- One iteration of the loop `while(1)` of `sim_t::run(debug)`; in debug
mode `line` is the input line the iteration reads. -/
def run_iteration (cm : core_model) (NGPR : Nat) (fuel : Nat) (debug : Bool)
    (line : List Char) (s : sim_t) : outcome Unit :=
  if !debug then step_all cm fuel 100 100 false s
  else
    let s0 : sim_t := { s with out := s.out ++ [':'] }
    match strtok_all (c_str (getline line)) [] with
    | [] => interactive_run_noisy cm fuel [['1']] s0
    | cmd :: args =>
      try_catch
        (match funcs cm NGPR fuel cmd with
         | some f => f args s0
         | none => outcome.ret () s0)

/-- The input left on `std::cin` after `getline` has read the first line of
`input`. A line of more than 126 characters sets the failbit of the stream,
after which, as at the end of the input, every `getline` delivers the empty
line. -/
def cin_rest (input : List (List Char)) : List (List Char) :=
  if (input.headD []).length ≤ 126 then input.tail else []

/-- The method `sim_t::run(debug)`: the loop `while(1)`; in debug mode the
iterations read the lines of `input` one after the other. -/
def run (cm : core_model) (NGPR : Nat) (debug : Bool) :
    Nat → List (List Char) → sim_t → outcome Unit
  | 0, _, s => outcome.running s
  | fuel + 1, input, s =>
    (run_iteration cm NGPR (fuel + 1) debug (input.headD []) s).bind
      (fun _ s1 => run cm NGPR debug fuel (if debug then cin_rest input else input) s1)

/-! ## Vocabulary of the statements -/

/-- The byte a write stores at offset `i` of the block: `src[i]`, or zero
when no source is given. -/
def written_byte (src : Option (Nat → byte)) (i : Nat) : byte :=
  match src with
  | some f => f i
  | none => 0

/-- Every step call of the core model returns: none throws a trap. -/
def core_model.returns (cm : core_model) : Prop :=
  ∀ p mem n noisy, (cm.step p mem n noisy).2.2 = none

/-- The step calls of one round: `step(interleave, noisy)` on the cores
`0, 1, ..., nprocs-1` in index order. -/
def round_calls (nprocs interleave : Nat) (noisy : Bool) : List step_call :=
  (List.range nprocs).map (fun i => { proc := i, n := interleave, noisy := noisy })

/-- The step calls of `k` consecutive rounds. -/
def rounds_calls (nprocs interleave : Nat) (noisy : Bool) : Nat → List step_call
  | 0 => []
  | k + 1 => round_calls nprocs interleave noisy ++ rounds_calls nprocs interleave noisy k

/-- The number of steps core `p` was asked to execute: the sum of the counts
of the step calls issued on it. -/
def steps_of (p : Nat) (calls : List step_call) : Nat :=
  ((calls.filter (fun c => c.proc = p)).map (fun c => c.n)).sum

/-- A step-counting stub core: a step call of `n` steps advances the program
counter by `n` and returns. -/
def stub_core : core_model :=
  { step := fun p mem n _ => ({ p with pc := p.pc + n }, mem, none) }

/-- A simulator with `nprocs` fresh cores of 32 registers, `memsz` zero
bytes of memory, no step call issued and nothing written yet. -/
def fresh_sim (nprocs memsz : Nat) : sim_t :=
  { procs := (List.range nprocs).map (fun i => { id := i, pc := 0, R := List.replicate 32 0 }),
    mem := List.replicate memsz 0, calls := [], out := [] }

/-- Whether an outcome is that of an execution still under way when the
fuel ran out. -/
def outcome.is_running {α : Type} : outcome α → Bool
  | outcome.running _ => true
  | _ => false

/-- The access width the specification's table assigns to an address:
8 bytes for residue 0 modulo 8, 4 bytes for residue 4, 2 bytes for residues
2 and 6, 1 byte for every other residue. -/
def spec_width (addr : Nat) : Nat :=
  if addr % 8 = 0 then 8
  else if addr % 8 = 4 then 4
  else if addr % 8 = 2 ∨ addr % 8 = 6 then 2
  else 1

/-- The outcome of `get_mem` for the result of its load. -/
def load_outcome (r : Except trap_t Nat) (s : sim_t) : outcome Nat :=
  match r with
  | Except.ok val => outcome.ret val s
  | Except.error t => outcome.thrown t s

/-- The value of the first `k` bytes of a pattern `P`, read as a
little-endian unsigned number. -/
def pattern_value (P : Nat → byte) (k : Nat) : Nat :=
  le_value ((List.range k).map P)

/-- A core whose every step call throws `trap_illegal_instruction`. -/
def trapping_core : core_model :=
  { step := fun p mem _ _ => (p, mem, some trap_t.illegal_instruction) }

/-- The command names of the console. -/
def command_names : List cstring :=
  [['r'], ['r', 's'], ['r', 'p'], ['r', 'p', 's'], ['r', 'e', 'g'], ['m', 'e', 'm'],
   ['u', 'n', 't', 'i', 'l'], ['q']]

/-- The input line of 125 spaces followed by `rx`. -/
def long_line_rx : List Char := List.replicate 125 ' ' ++ ['r', 'x']

/-- The 16-digit lower-case hexadecimal text of a 64-bit value, as the
console prints it after `0x`. -/
def hex16 (v : Nat) : List Char :=
  (List.range 16).reverse.map (fun i => hex_digit ((v % WORD) / 16 ^ i % 16))

/-- A stub core whose register 3 increments by 1 per step: a step call of
`n` steps adds `n` to `R[3]` and returns. -/
def counting_core : core_model :=
  { step := fun p mem n _ => ({ p with R := p.R.set 3 (p.R.getD 3 0 + n) }, mem, none) }

/-- The simulator with the single core of `counting_core` after `j`
single-step rounds from the fresh state: register 3 holds `j` and `j` step
calls have been issued. -/
def counting_state (j : Nat) : sim_t :=
  { procs := [{ id := 0, pc := 0, R := (List.replicate 32 0).set 3 j }], mem := [],
    calls := List.replicate j { proc := 0, n := 1, noisy := false }, out := [] }

/-- The state of a one-core simulator whose register 3 holds `v`. -/
def reg3_sim (v : Nat) : sim_t :=
  { procs := [{ id := 0, pc := 0, R := (List.replicate 32 0).set 3 v }], mem := [],
    calls := [], out := [] }

/-- The decimal text of `n` written with `k` digits, most significant
first, with leading zeros. -/
def decimal_text (k n : Nat) : List Char :=
  (List.range k).reverse.map (fun i => hex_digit (n / 10 ^ i % 10))

/-- The trap, if any, that the core model makes the call
`procs[k].step(n, noisy)` throw in state `s`. -/
def step_trap (cm : core_model) (k n : Nat) (noisy : Bool) (s : sim_t) : Option trap_t :=
  match s.procs[k]? with
  | some p => (cm.step p s.mem n noisy).2.2
  | none => none

/-- The state the call `procs[k].step(n, noisy)` leaves, by the core model:
core `k` and the memory as the step leaves them, the other cores as they
were, and the call recorded. -/
def stepped (cm : core_model) (k n : Nat) (noisy : Bool) (s : sim_t) : sim_t :=
  match s.procs[k]? with
  | some p =>
    { s with procs := s.procs.set k (cm.step p s.mem n noisy).1,
             mem := (cm.step p s.mem n noisy).2.1,
             calls := s.calls ++ [{ proc := k, n := n, noisy := noisy }] }
  | none => s

/-- The state after the cores `0, 1, ..., q-1` have each been stepped once,
in index order, by `step(n, noisy)`. -/
def batch_upto (cm : core_model) (n : Nat) (noisy : Bool) : Nat → sim_t → sim_t
  | 0, s => s
  | q + 1, s => stepped cm q n noisy (batch_upto cm n noisy q s)

/-- The state after `b` whole rounds, each stepping every core once, in
index order, by `step(n, noisy)`. -/
def after_batches (cm : core_model) (n : Nat) (noisy : Bool) : Nat → sim_t → sim_t
  | 0, s => s
  | b + 1, s =>
    batch_upto cm n noisy (after_batches cm n noisy b s).procs.length
      (after_batches cm n noisy b s)

/-- A stub core whose register 3 increments by 1 per step and whose every
step call then throws `trap_illegal_instruction`. -/
def counting_trapping_core : core_model :=
  { step := fun p mem n _ =>
      ({ p with R := p.R.set 3 (p.R.getD 3 0 + n) }, mem, some trap_t.illegal_instruction) }

/-- A core model in which core 1 traps once its program counter has reached
100, and every other step call advances the program counter and returns. -/
def late_trapping_core : core_model :=
  { step := fun p mem n _ =>
      if p.id = 1 ∧ 100 ≤ p.pc then (p, mem, some trap_t.illegal_instruction)
      else ({ p with pc := p.pc + n }, mem, none) }

/-! # Theorems -/


/-! ## Lemmas on the scheduler loops -/

theorem proc_step_returns (cm : core_model) (hcm : cm.returns) (k n : Nat) (noisy : Bool)
    (s : sim_t) (hk : k < s.procs.length) :
    ∃ s1, proc_step cm (k : Int) n noisy s = outcome.ret () s1 ∧
      s1.calls = s.calls ++ [{ proc := k, n := n, noisy := noisy }] ∧
      s1.procs.length = s.procs.length ∧ s1.out = s.out := by
  have hget : s.procs[k]? = some s.procs[k] := List.getElem?_eq_getElem hk
  refine ⟨{ s with procs := s.procs.set k (cm.step s.procs[k] s.mem n noisy).1,
                   mem := (cm.step s.procs[k] s.mem n noisy).2.1,
                   calls := s.calls ++ [{ proc := k, n := n, noisy := noisy }] }, ?_, ?_⟩
  · show proc_step cm (Int.ofNat k) n noisy s = _
    simp only [proc_step, hget, hcm _ _ _ _]
  · simp

theorem step_round_returns (cm : core_model) (hcm : cm.returns) (il : Nat) (noisy : Bool) :
    ∀ (k i : Nat) (s : sim_t), i + k ≤ s.procs.length →
    ∃ s1, step_round cm il noisy k i s = outcome.ret () s1 ∧
      s1.calls = s.calls ++
        (List.range' i k).map (fun i => { proc := i, n := il, noisy := noisy }) ∧
      s1.procs.length = s.procs.length ∧ s1.out = s.out := by
  intro k
  induction k with
  | zero => intro i s _; exact ⟨s, rfl, by simp, rfl, rfl⟩
  | succ k ih =>
    intro i s h
    obtain ⟨s1, h1, hc1, hl1, ho1⟩ := proc_step_returns cm hcm i il noisy s (by omega)
    obtain ⟨s2, h2, hc2, hl2, ho2⟩ := ih (i + 1) s1 (by omega)
    refine ⟨s2, ?_, ?_, by omega, by rw [ho2, ho1]⟩
    · simp only [step_round, h1, outcome.bind, h2]
    · rw [hc2, hc1]; simp [List.range'_succ]

theorem step_full_round_returns (cm : core_model) (hcm : cm.returns) (il : Nat) (noisy : Bool)
    (s : sim_t) :
    ∃ s1, step_round cm il noisy s.procs.length 0 s = outcome.ret () s1 ∧
      s1.calls = s.calls ++ round_calls s.procs.length il noisy ∧
      s1.procs.length = s.procs.length ∧ s1.out = s.out := by
  obtain ⟨s1, h1, hc1, hl1, ho1⟩ := step_round_returns cm hcm il noisy s.procs.length 0 s (by omega)
  exact ⟨s1, h1, by rw [hc1, round_calls, List.range_eq_range'], hl1, ho1⟩

theorem lt_ceil_div_iff (n il t : Nat) (hil : 0 < il) :
    t < (n + il - 1) / il ↔ t * il < n := by
  rw [Nat.lt_iff_add_one_le, Nat.le_div_iff_mul_le hil, Nat.add_mul]
  omega

theorem step_all_loop_returns (cm : core_model) (hcm : cm.returns) (n il : Nat) (noisy : Bool)
    (hil : 0 < il) (hwrap : (n + il - 1) / il * il < WORD) :
    ∀ (r t fuel : Nat) (s : sim_t), t + r = (n + il - 1) / il → r < fuel →
    ∃ s1, step_all_loop cm n il noisy fuel (t * il) s = outcome.ret () s1 ∧
      s1.calls = s.calls ++ rounds_calls s.procs.length il noisy r ∧
      s1.procs.length = s.procs.length ∧ s1.out = s.out := by
  intro r
  induction r with
  | zero =>
    intro t fuel s ht hf
    obtain ⟨f, rfl⟩ : ∃ f, fuel = f + 1 := ⟨fuel - 1, by omega⟩
    have hnot : ¬ (t * il < n) := by
      rw [← lt_ceil_div_iff n il t hil]; omega
    exact ⟨s, by simp only [step_all_loop, if_neg hnot], by simp [rounds_calls], rfl, rfl⟩
  | succ r ih =>
    intro t fuel s ht hf
    obtain ⟨f, rfl⟩ : ∃ f, fuel = f + 1 := ⟨fuel - 1, by omega⟩
    have hlt : t * il < n := by
      rw [← lt_ceil_div_iff n il t hil]; omega
    obtain ⟨s1, h1, hc1, hl1, ho1⟩ := step_full_round_returns cm hcm il noisy s
    have hle : (t + 1) * il ≤ (n + il - 1) / il * il :=
      Nat.mul_le_mul_right il (by omega)
    have hmod : (t * il + il) % WORD = (t + 1) * il := by
      rw [Nat.add_mul, Nat.one_mul] at hle ⊢
      exact Nat.mod_eq_of_lt (by omega)
    obtain ⟨s2, h2, hc2, hl2, ho2⟩ := ih (t + 1) f s1 (by omega) (by omega)
    refine ⟨s2, ?_, ?_, by omega, by rw [ho2, ho1]⟩
    · simp only [step_all_loop, if_pos hlt, h1, outcome.bind, hmod, h2]
    · rw [hc2, hc1, hl1]; simp [rounds_calls]

/-! ## Counting the steps of a core -/

theorem steps_of_append (p : Nat) (a b : List step_call) :
    steps_of p (a ++ b) = steps_of p a + steps_of p b := by
  simp [steps_of, List.filter_append]

theorem steps_of_round (p nprocs il : Nat) (noisy : Bool) :
    steps_of p (round_calls nprocs il noisy) = if p < nprocs then il else 0 := by
  induction nprocs with
  | zero => simp [steps_of, round_calls]
  | succ k ih =>
    have hsplit : round_calls (k + 1) il noisy
        = round_calls k il noisy ++ [{ proc := k, n := il, noisy := noisy }] := by
      simp [round_calls, List.range_succ]
    rw [hsplit, steps_of_append, ih]
    by_cases hkp : k = p
    · subst hkp; simp [steps_of]
    · have h1 : steps_of p [{ proc := k, n := il, noisy := noisy }] = 0 := by
        simp [steps_of, hkp]
      rw [h1]
      by_cases hlt : p < k
      · rw [if_pos hlt, if_pos (by omega)]; rfl
      · rw [if_neg hlt, if_neg (by omega)]

theorem steps_of_rounds (p nprocs il : Nat) (noisy : Bool) (hp : p < nprocs) (k : Nat) :
    steps_of p (rounds_calls nprocs il noisy k) = k * il := by
  induction k with
  | zero => simp [steps_of, rounds_calls]
  | succ k ih =>
    rw [rounds_calls, steps_of_append, ih, steps_of_round, if_pos hp, Nat.add_mul]
    omega

theorem ceil_div_of_dvd (il q : Nat) (hil : 0 < il) : (il * q + il - 1) / il = q := by
  have h : il * q + il - 1 = il * q + (il - 1) := by omega
  rw [h, Nat.mul_add_div hil, Nat.div_eq_of_lt (by omega)]
  rfl

/-! ## C1 and C2: `step_all` -/

/-- C1, counterexample: `step_all(5, 2, false)` on one step-counting core
returns after three rounds of two steps: the core has executed 6 steps, not
5, although `interleave <= total_steps`. -/
theorem C1_step_all_five_by_two_executes_six :
    2 ≤ 5 ∧
    step_all stub_core 4 5 2 false (fresh_sim 1 0)
      = outcome.ret ()
          { procs := [{ id := 0, pc := 6, R := List.replicate 32 0 }], mem := [],
            calls := rounds_calls 1 2 false 3, out := [] } ∧
    steps_of 0 (rounds_calls 1 2 false 3) = 6 ∧ 6 ≠ 5 := by
  decide

/-- C1, amended: for every `total_steps` (a `size_t`) and every `interleave`
that divides `total_steps`, every number of cores and every core model whose
step calls return, `step_all(total_steps, interleave, noisy)` returns (given
fuel for its `total_steps / interleave` rounds) and every core has then been
asked to execute exactly `total_steps` more steps. -/
theorem C1_step_all_total_when_interleave_divides (cm : core_model) (hcm : cm.returns)
    (n il fuel : Nat) (noisy : Bool) (s : sim_t)
    (hdvd : il ∣ n) (hn : n < WORD) (hfuel : n / il < fuel) :
    ∃ s1, step_all cm fuel n il noisy s = outcome.ret () s1 ∧
      ∀ p, p < s.procs.length → steps_of p s1.calls = steps_of p s.calls + n := by
  obtain ⟨q, rfl⟩ := hdvd
  by_cases hil : 0 < il
  · have hK : (il * q + il - 1) / il = q := ceil_div_of_dvd il q hil
    have hq : il * q / il = q := Nat.mul_div_cancel_left q hil
    have hwrap : (il * q + il - 1) / il * il < WORD := by
      rw [hK, Nat.mul_comm]; exact hn
    obtain ⟨s1, h1, hc1, _, _⟩ :=
      step_all_loop_returns cm hcm (il * q) il noisy hil hwrap q 0 fuel s
        (by rw [hK]; omega) (by omega)
    refine ⟨s1, ?_, ?_⟩
    · rw [← h1, Nat.zero_mul]; rfl
    · intro p hp
      rw [hc1, steps_of_append, steps_of_rounds p _ il noisy hp q, Nat.mul_comm]
  · have h0 : il = 0 := by omega
    subst h0
    obtain ⟨f, rfl⟩ : ∃ f, fuel = f + 1 := ⟨fuel - 1, by omega⟩
    refine ⟨s, ?_, ?_⟩
    · simp [step_all, step_all_loop]
    · intro p _; simp

/-- C1, witness: the theorem applied at a concrete input. -/
theorem C1_step_all_total_when_interleave_divides_witness :
    ∃ s1, step_all stub_core 4 6 2 false (fresh_sim 2 0) = outcome.ret () s1 ∧
      ∀ p, p < (fresh_sim 2 0).procs.length →
        steps_of p s1.calls = steps_of p (fresh_sim 2 0).calls + 6 :=
  C1_step_all_total_when_interleave_divides stub_core (fun _ _ _ _ => rfl) 6 2 4 false
    (fresh_sim 2 0) (by decide) (by decide) (by decide)

/-- C2, counterexample: for `total_steps = 2^64 - 1` and `interleave = 2^63`
the specification's `ceil(total_steps / interleave)` is 2, but the `size_t`
counter wraps from `2^63` back to 0: three iterations of the loop have issued
three rounds and the loop is still running. -/
theorem C2_step_all_counter_wraps_past_ceil_rounds :
    (2 ^ 64 - 1 + 2 ^ 63 - 1) / 2 ^ 63 = 2 ∧
    (step_all stub_core 3 (2 ^ 64 - 1) (2 ^ 63) false (fresh_sim 1 0)).is_running = true ∧
    (step_all stub_core 3 (2 ^ 64 - 1) (2 ^ 63) false (fresh_sim 1 0)).state.calls
      = rounds_calls 1 (2 ^ 63) false 3 := by
  decide

/-- C2, amended: for every `total_steps`, every `interleave >= 1` such that
`ceil(total_steps / interleave) * interleave < 2^64` (the loop counter does
not wrap), every number of cores and every core model whose step calls
return, `step_all(total_steps, interleave, noisy)` returns (given fuel for
its rounds) and the step calls it has issued are exactly
`ceil(total_steps / interleave)` consecutive rounds, each round one call
`step(interleave, noisy)` on core 0, 1, ..., nprocs-1 in index order. -/
theorem C2_step_all_issues_ceil_rounds (cm : core_model) (hcm : cm.returns)
    (n il fuel : Nat) (noisy : Bool) (s : sim_t)
    (hil : 1 ≤ il) (hwrap : (n + il - 1) / il * il < WORD) (hfuel : (n + il - 1) / il < fuel) :
    ∃ s1, step_all cm fuel n il noisy s = outcome.ret () s1 ∧
      s1.calls = s.calls ++ rounds_calls s.procs.length il noisy ((n + il - 1) / il) := by
  obtain ⟨s1, h1, hc1, _, _⟩ :=
    step_all_loop_returns cm hcm n il noisy hil hwrap ((n + il - 1) / il) 0 fuel s
      (by omega) hfuel
  refine ⟨s1, ?_, hc1⟩
  rw [← h1, Nat.zero_mul]; rfl

/-- C2, witness: the theorem applied at a concrete input. -/
theorem C2_step_all_issues_ceil_rounds_witness :
    ∃ s1, step_all stub_core 4 5 2 true (fresh_sim 2 0) = outcome.ret () s1 ∧
      s1.calls = (fresh_sim 2 0).calls
        ++ rounds_calls (fresh_sim 2 0).procs.length 2 true ((5 + 2 - 1) / 2) :=
  C2_step_all_issues_ceil_rounds stub_core (fun _ _ _ _ => rfl) 5 2 4 true (fresh_sim 2 0)
    (by decide) (by decide) (by decide)

/-! ## Lemmas on `memcpy` and `memset` -/

theorem memcpy_length (mem : List byte) (dst : Nat) (src : Nat → byte) (n : Nat) :
    (memcpy mem dst src n).length = mem.length := by
  induction n with
  | zero => rfl
  | succ k ih => simp [memcpy, ih]

theorem memset_length (mem : List byte) (dst : Nat) (c : byte) (n : Nat) :
    (memset mem dst c n).length = mem.length := by
  induction n with
  | zero => rfl
  | succ k ih => simp [memset, ih]

theorem memcpy_getElem?_inside (mem : List byte) (dst : Nat) (src : Nat → byte) (n i : Nat)
    (hfit : dst + n ≤ mem.length) (hi : i < n) :
    (memcpy mem dst src n)[dst + i]? = some (src i) := by
  induction n with
  | zero => omega
  | succ k ih =>
    simp only [memcpy, List.getElem?_set, memcpy_length]
    by_cases hik : i = k
    · subst hik
      have hlt : dst + i < mem.length := by omega
      simp [hlt]
    · have hne : ¬ (dst + k = dst + i) := by omega
      rw [if_neg hne]
      exact ih (by omega) (by omega)

theorem memcpy_getElem?_outside (mem : List byte) (dst : Nat) (src : Nat → byte) (n j : Nat)
    (hj : j < dst ∨ dst + n ≤ j) :
    (memcpy mem dst src n)[j]? = mem[j]? := by
  induction n with
  | zero => rfl
  | succ k ih =>
    simp only [memcpy, List.getElem?_set]
    have hne : ¬ (dst + k = j) := by omega
    rw [if_neg hne]
    exact ih (by omega)

theorem memset_getElem?_inside (mem : List byte) (dst : Nat) (c : byte) (n i : Nat)
    (hfit : dst + n ≤ mem.length) (hi : i < n) :
    (memset mem dst c n)[dst + i]? = some c := by
  induction n with
  | zero => omega
  | succ k ih =>
    simp only [memset, List.getElem?_set, memset_length]
    by_cases hik : i = k
    · subst hik
      have hlt : dst + i < mem.length := by omega
      simp [hlt]
    · have hne : ¬ (dst + k = dst + i) := by omega
      rw [if_neg hne]
      exact ih (by omega) (by omega)

theorem memset_getElem?_outside (mem : List byte) (dst : Nat) (c : byte) (n j : Nat)
    (hj : j < dst ∨ dst + n ≤ j) :
    (memset mem dst c n)[j]? = mem[j]? := by
  induction n with
  | zero => rfl
  | succ k ih =>
    simp only [memset, List.getElem?_set]
    have hne : ¬ (dst + k = j) := by omega
    rw [if_neg hne]
    exact ih (by omega)

/-! ## C3, C4 and C5: `memory_t::write` -/

/-- What `memory_t::write` returns once its `demand` has passed. -/
theorem write_of_demand (m : memory_t) (addr bytes : Nat) (src : Option (Nat → byte))
    (h1 : addr < m.size) (h2 : (addr + bytes) % WORD ≤ m.size) :
    m.write addr bytes src =
      (if addr + bytes ≤ m.mem.length then
        match src with
        | some f => write_result.ok { m with mem := memcpy m.mem addr f bytes }
        | none => write_result.ok { m with mem := memset m.mem addr 0 bytes }
      else write_result.overrun) := by
  simp [memory_t.write, demand, h1, h2]

/-- What `memory_t::write` returns when its `demand` fails. -/
theorem write_of_not_demand (m : memory_t) (addr bytes : Nat) (src : Option (Nat → byte))
    (h : ¬ (addr < m.size ∧ (addr + bytes) % WORD ≤ m.size)) :
    m.write addr bytes src = write_result.fatal "out of bounds!" := by
  simp only [memory_t.write, demand]
  rw [if_neg]
  simpa using h

/-- C3, at the failing input: in a 16-byte Address Space the call
`write(1, 2^64 - 1, NULL)` has a true sum `addr + length` far above the size,
yet the `size_t` sum wraps to 0, the demand passes and the call does not fail
fatally: `memset` is started on a block that overruns the buffer. -/
theorem C3_write_wrapped_sum_passes_demand :
    1 + (2 ^ 64 - 1) > 16 ∧
    memory_t.write { mem := List.replicate 16 0, size := 16 } 1 (2 ^ 64 - 1) none
      = write_result.overrun := by
  decide

/-- C4, counterexample: the zero-length write at `addr == size` satisfies
`addr + length <= size` and fails fatally. -/
theorem C4_zero_length_write_at_size_is_fatal :
    16 + 0 ≤ 16 ∧
    memory_t.write { mem := List.replicate 16 0, size := 16 } 16 0 none
      = write_result.fatal "out of bounds!" := by
  decide

/-- C4, amended: on an Address Space whose buffer has `size` bytes, a write
with `addr < size` and `addr + length <= size` succeeds, and a write with
`addr >= size` fails fatally, whatever its length. -/
theorem C4_write_succeeds_iff_addr_below_size (m : memory_t) (addr bytes : Nat)
    (src : Option (Nat → byte)) (hwf : m.mem.length = m.size) :
    (addr < m.size → addr + bytes ≤ m.size → ∃ m2, m.write addr bytes src = write_result.ok m2) ∧
    (m.size ≤ addr → m.write addr bytes src = write_result.fatal "out of bounds!") := by
  constructor
  · intro h1 h2
    have h3 : (addr + bytes) % WORD ≤ m.size := le_trans (Nat.mod_le _ _) h2
    rw [write_of_demand m addr bytes src h1 h3, if_pos (by omega)]
    cases src with
    | some f => exact ⟨_, rfl⟩
    | none => exact ⟨_, rfl⟩
  · intro h
    exact write_of_not_demand m addr bytes src (by omega)

/-- C4, witness: the theorem applied at a concrete input. -/
theorem C4_write_succeeds_iff_addr_below_size_witness :
    (∃ m2, memory_t.write { mem := List.replicate 16 0, size := 16 } 15 1 none
        = write_result.ok m2) ∧
    memory_t.write { mem := List.replicate 16 0, size := 16 } 16 0 none
        = write_result.fatal "out of bounds!" :=
  ⟨(C4_write_succeeds_iff_addr_below_size { mem := List.replicate 16 0, size := 16 } 15 1 none
      (by decide)).1 (by decide) (by decide),
   (C4_write_succeeds_iff_addr_below_size { mem := List.replicate 16 0, size := 16 } 16 0 none
      (by decide)).2 (by decide)⟩

/-- C5: when `memory_t::write(addr, length, src)` succeeds, the size and the
length of the buffer are unchanged, every byte at `addr + i` with
`i < length` is `src[i]` (zero when no source is given), and every byte at
an offset outside `[addr, addr + length)` is unchanged. -/
theorem C5_write_reflects_exactly_written_bytes (m m2 : memory_t) (addr bytes : Nat)
    (src : Option (Nat → byte)) (hok : m.write addr bytes src = write_result.ok m2) :
    m2.size = m.size ∧ m2.mem.length = m.mem.length ∧
    (∀ i, i < bytes → m2.mem[addr + i]? = some (written_byte src i)) ∧
    (∀ j, j < addr ∨ addr + bytes ≤ j → m2.mem[j]? = m.mem[j]?) := by
  by_cases hd : addr < m.size ∧ (addr + bytes) % WORD ≤ m.size
  · rw [write_of_demand m addr bytes src hd.1 hd.2] at hok
    by_cases hfit : addr + bytes ≤ m.mem.length
    · rw [if_pos hfit] at hok
      cases src with
      | some f =>
        simp only [write_result.ok.injEq] at hok
        subst hok
        exact ⟨rfl, memcpy_length _ _ _ _,
          fun i hi => memcpy_getElem?_inside _ _ _ _ _ hfit hi,
          fun j hj => memcpy_getElem?_outside _ _ _ _ _ hj⟩
      | none =>
        simp only [write_result.ok.injEq] at hok
        subst hok
        exact ⟨rfl, memset_length _ _ _ _,
          fun i hi => memset_getElem?_inside _ _ _ _ _ hfit hi,
          fun j hj => memset_getElem?_outside _ _ _ _ _ hj⟩
    · rw [if_neg hfit] at hok
      cases hok
  · rw [write_of_not_demand m addr bytes src hd] at hok
    cases hok

/-- C5, witness: the theorem applied at a concrete input. -/
theorem C5_write_reflects_exactly_written_bytes_witness :
    memory_t.write { mem := [1, 2, 3, 4], size := 4 } 1 2 (some fun i => Fin.ofNat (7 + i))
      = write_result.ok { mem := [1, 7, 8, 4], size := 4 } ∧
    ((4 : Nat) = 4 ∧ ([1, 7, 8, 4] : List byte).length = ([1, 2, 3, 4] : List byte).length ∧
    (∀ i, i < 2 → ([1, 7, 8, 4] : List byte)[1 + i]?
        = some (written_byte (some fun i => Fin.ofNat (7 + i)) i)) ∧
    (∀ j, j < 1 ∨ 1 + 2 ≤ j → ([1, 7, 8, 4] : List byte)[j]? = ([1, 2, 3, 4] : List byte)[j]?)) :=
  ⟨by decide,
   C5_write_reflects_exactly_written_bytes { mem := [1, 2, 3, 4], size := 4 }
     { mem := [1, 7, 8, 4], size := 4 } 1 2 (some fun i => Fin.ofNat (7 + i)) (by decide)⟩


/-! ## C6 and C7: the sized memory reader -/

theorem get_mem_switch_eq (mem : List byte) (memsz addr : Nat) :
    get_mem_switch mem memsz addr = mmu_load mem memsz (spec_width addr) addr := by
  have hr : addr % 8 < 8 := Nat.mod_lt _ (by decide)
  unfold get_mem_switch spec_width
  generalize addr % 8 = r at hr
  have hcases : r = 0 ∨ r = 1 ∨ r = 2 ∨ r = 3 ∨ r = 4 ∨ r = 5 ∨ r = 6 ∨ r = 7 := by omega
  rcases hcases with h | h | h | h | h | h | h | h <;> subst h <;>
    simp [load_uint64, load_uint32, load_uint16, load_uint8]

theorem get_mem_one_arg (s : sim_t) (a : cstring) :
    get_mem s [a]
      = load_outcome (get_mem_switch s.mem s.memsz (to_word (strtol a 16))) s := by
  simp only [get_mem, List.length_singleton, ne_eq, not_true_eq_false, if_false,
    List.getD_cons_zero, load_outcome]

/-- C6: for every state and every single argument `a`, with `addr` the
address `get_mem` parses from it, `get_mem` performs the load of the width
the table gives: `load_uint64` when `addr mod 8 == 0`, `load_uint32` when
`addr mod 8 == 4`, `load_uint16` when `addr mod 8` is 2 or 6, and
`load_uint8` for the residues 1, 3, 5, 7. -/
theorem C6_get_mem_width_by_alignment (s : sim_t) (a : cstring) :
    get_mem s [a]
      = load_outcome
          (mmu_load s.mem s.memsz (spec_width (to_word (strtol a 16))) (to_word (strtol a 16))) s
    ∧ (to_word (strtol a 16) % 8 = 0 →
        get_mem s [a] = load_outcome (load_uint64 s.mem s.memsz (to_word (strtol a 16))) s)
    ∧ (to_word (strtol a 16) % 8 = 4 →
        get_mem s [a] = load_outcome (load_uint32 s.mem s.memsz (to_word (strtol a 16))) s)
    ∧ (to_word (strtol a 16) % 8 = 2 ∨ to_word (strtol a 16) % 8 = 6 →
        get_mem s [a] = load_outcome (load_uint16 s.mem s.memsz (to_word (strtol a 16))) s)
    ∧ (to_word (strtol a 16) % 8 = 1 ∨ to_word (strtol a 16) % 8 = 3 ∨
        to_word (strtol a 16) % 8 = 5 ∨ to_word (strtol a 16) % 8 = 7 →
        get_mem s [a] = load_outcome (load_uint8 s.mem s.memsz (to_word (strtol a 16))) s) := by
  rw [get_mem_one_arg, get_mem_switch_eq]
  refine ⟨rfl, ?_, ?_, ?_, ?_⟩
  · intro h; simp [spec_width, h, load_uint64]
  · intro h; simp [spec_width, h, load_uint32]
  · intro h; rcases h with h | h <;> simp [spec_width, h, load_uint16]
  · intro h; rcases h with h | h | h | h <;> simp [spec_width, h, load_uint8]

/-- C6, witness: the theorem applied at a concrete input. -/
theorem C6_get_mem_width_by_alignment_witness :
    get_mem (fresh_sim 1 16) [['c']]
      = load_outcome (load_uint32 (fresh_sim 1 16).mem (fresh_sim 1 16).memsz 12)
          (fresh_sim 1 16) :=
  (C6_get_mem_width_by_alignment (fresh_sim 1 16) ['c']).2.2.1 (by decide)

theorem memcpy_block (mem : List byte) (dst : Nat) (src : Nat → byte) (n w : Nat)
    (hfit : dst + n ≤ mem.length) (hw : w ≤ n) :
    ((memcpy mem dst src n).drop dst).take w = (List.range w).map src := by
  apply List.ext_getElem?
  intro j
  rw [List.getElem?_take, List.getElem?_drop, List.getElem?_map]
  by_cases hj : j < w
  · rw [if_pos hj, memcpy_getElem?_inside mem dst src n j hfit (by omega),
      List.getElem?_range hj]
    rfl
  · rw [if_neg hj, List.getElem?_eq_none (by simpa using hj)]
    rfl

theorem pattern_value_low_half (P : Nat → byte) :
    pattern_value P 4 = pattern_value P 8 % 2 ^ 32 := by
  have h0 := (P 0).isLt
  have h1 := (P 1).isLt
  have h2 := (P 2).isLt
  have h3 := (P 3).isLt
  have e8 : List.range 8 = [0, 1, 2, 3, 4, 5, 6, 7] := rfl
  have e4 : List.range 4 = [0, 1, 2, 3] := rfl
  simp only [pattern_value, e8, e4, List.map, le_value]
  omega

/-- C7: for every 8-byte pattern `P`, every address `a` with
`a + 8 <= memsz` and every argument text that `get_mem` parses to `a`, the
loader write of `P` at `a` succeeds, and reading `a` back with `get_mem`
yields the full little-endian value of the 8 bytes when `a mod 8 == 0`, and
when `a mod 8 == 4` only the value of the 4 bytes stored at `a .. a+3`,
which is the low 32 bits of the pattern's value, widened with zeros. -/
theorem C7_write_then_get_mem (s : sim_t) (P : Nat → byte) (a : Nat) (arg : cstring)
    (hin : a + 8 ≤ s.memsz) (harg : to_word (strtol arg 16) = a) :
    ∃ m2, s.loader.write a 8 (some P) = write_result.ok m2 ∧
      (a % 8 = 0 →
        get_mem { s with mem := m2.mem } [arg]
          = outcome.ret (pattern_value P 8) { s with mem := m2.mem }) ∧
      (a % 8 = 4 →
        get_mem { s with mem := m2.mem } [arg]
          = outcome.ret (pattern_value P 4) { s with mem := m2.mem } ∧
        pattern_value P 4 = pattern_value P 8 % 2 ^ 32 ∧ pattern_value P 4 < 2 ^ 32) := by
  have hin2 : a + 8 ≤ s.mem.length := hin
  have hlt : a < s.loader.size := by
    show a < s.mem.length
    omega
  have hle : (a + 8) % WORD ≤ s.loader.size := le_trans (Nat.mod_le _ _) hin
  refine ⟨{ s.loader with mem := memcpy s.mem a P 8 }, ?_, ?_, ?_⟩
  · rw [write_of_demand s.loader a 8 (some P) hlt hle]
    exact if_pos hin
  · intro h0
    rw [get_mem_one_arg, harg, get_mem_switch_eq]
    have hw : spec_width a = 8 := by simp [spec_width, h0]
    have hfit : a + 8 ≤ (memcpy s.mem a P 8).length := by rw [memcpy_length]; exact hin2
    simp only [hw, mmu_load, sim_t.memsz, if_pos hfit, load_outcome, pattern_value,
      memcpy_block s.mem a P 8 8 hin2 (le_refl 8)]
  · intro h4
    refine ⟨?_, pattern_value_low_half P, ?_⟩
    · rw [get_mem_one_arg, harg, get_mem_switch_eq]
      have hw : spec_width a = 4 := by simp [spec_width, h4]
      have hfit : a + 4 ≤ (memcpy s.mem a P 8).length := by rw [memcpy_length]; omega
      simp only [hw, mmu_load, sim_t.memsz, if_pos hfit, load_outcome, pattern_value,
        memcpy_block s.mem a P 8 4 hin2 (by decide)]
    · rw [pattern_value_low_half P]
      exact Nat.mod_lt _ (by decide)

/-- C7, witness: the theorem applied at a concrete input. -/
theorem C7_write_then_get_mem_witness :
    ∃ m2, (fresh_sim 1 16).loader.write 4 8 (some fun i => Fin.ofNat (i + 1))
        = write_result.ok m2 ∧
      (4 % 8 = 0 →
        get_mem { fresh_sim 1 16 with mem := m2.mem } [['4']]
          = outcome.ret (pattern_value (fun i => Fin.ofNat (i + 1)) 8)
              { fresh_sim 1 16 with mem := m2.mem }) ∧
      (4 % 8 = 4 →
        get_mem { fresh_sim 1 16 with mem := m2.mem } [['4']]
          = outcome.ret (pattern_value (fun i => Fin.ofNat (i + 1)) 4)
              { fresh_sim 1 16 with mem := m2.mem } ∧
        pattern_value (fun i => Fin.ofNat (i + 1)) 4
          = pattern_value (fun i => Fin.ofNat (i + 1)) 8 % 2 ^ 32 ∧
        pattern_value (fun i => Fin.ofNat (i + 1)) 4 < 2 ^ 32) :=
  C7_write_then_get_mem (fresh_sim 1 16) (fun i => Fin.ofNat (i + 1)) 4 ['4']
    (by decide) (by decide)

/-! ## C8: `get_reg` -/

/-- C8, at the failing input: with one core and 32 registers, the arguments
`-1 0` have the right count and parse to the core index -1, which is outside
`0..nprocs-1`; `get_reg` compares only `p >= nprocs` and `r >= NGPR`, signals
no trap and indexes `procs[-1]`, outside the array. The same holds for the
register index in `0 -1`. -/
theorem C8_get_reg_negative_index_not_trapped :
    atoi ['-', '1'] = -1 ∧
    get_reg 32 (fresh_sim 1 0) [['-', '1'], ['0']] = outcome.undefined (fresh_sim 1 0) ∧
    get_reg 32 (fresh_sim 1 0) [['0'], ['-', '1']] = outcome.undefined (fresh_sim 1 0) := by
  decide

/-- What `get_reg` does on the arguments the claim C8 describes correctly:
a trap when the count is not 2, or the core index is `nprocs` or more, or the
register index is `NGPR` or more. -/
theorem get_reg_traps (NGPR : Nat) (s : sim_t) (args : List cstring)
    (h : args.length ≠ 2 ∨ atoi (args.getD 0 []) ≥ s.nprocs ∨
      atoi (args.getD 1 []) ≥ (NGPR : Int)) :
    get_reg NGPR s args = outcome.thrown trap_t.illegal_instruction s := by
  unfold get_reg
  by_cases hlen : args.length ≠ 2
  · rw [if_pos hlen]
  · rw [if_neg hlen]
    have h2 : atoi (args.getD 0 []) ≥ s.nprocs ∨ atoi (args.getD 1 []) ≥ (NGPR : Int) := by
      rcases h with h | h | h
      · exact absurd h hlen
      · exact Or.inl h
      · exact Or.inr h
    simp only [if_pos h2]

/-! ## C9 and C10: one iteration of the console -/

/-- C9, at the failing input: on the empty line, and on a line of spaces,
the iteration calls `interactive_run_noisy` outside the `try` block; with a
core whose step throws, the trap leaves the iteration. The same trap raised
by the command `r 1`, dispatched from the table, is caught. -/
theorem C9_trap_escapes_on_empty_line :
    run_iteration trapping_core 32 2 true [] (fresh_sim 1 0)
      = outcome.thrown trap_t.illegal_instruction
          { fresh_sim 1 0 with calls := [{ proc := 0, n := 1, noisy := true }], out := [':'] } ∧
    run_iteration trapping_core 32 2 true [' ', ' '] (fresh_sim 1 0)
      = outcome.thrown trap_t.illegal_instruction
          { fresh_sim 1 0 with calls := [{ proc := 0, n := 1, noisy := true }], out := [':'] } ∧
    run_iteration trapping_core 32 2 true ['r', ' ', '1'] (fresh_sim 1 0)
      = outcome.ret ()
          { fresh_sim 1 0 with calls := [{ proc := 0, n := 1, noisy := true }], out := [':'] } := by
  decide

theorem try_catch_not_thrown (x : outcome Unit) (t : trap_t) (s : sim_t) :
    try_catch x ≠ outcome.thrown t s := by
  cases x <;> simp [try_catch]

/-- On a line of which the console reads at least one token, no trap leaves
the iteration of the console, whatever the cores do. -/
theorem run_iteration_dispatch_catches (cm : core_model) (NGPR fuel : Nat) (line : List Char)
    (s : sim_t) (htok : strtok_all (c_str (getline line)) [] ≠ []) (t : trap_t) (s1 : sim_t) :
    run_iteration cm NGPR fuel true line s ≠ outcome.thrown t s1 := by
  unfold run_iteration
  cases htoks : strtok_all (c_str (getline line)) [] with
  | nil => exact absurd htoks htok
  | cons cmd args =>
    simp only [Bool.not_true, Bool.false_eq_true, if_false]
    exact try_catch_not_thrown _ t s1

theorem funcs_unknown (cm : core_model) (NGPR fuel : Nat) (cmd : cstring)
    (h : cmd ∉ command_names) : (funcs cm NGPR fuel cmd).isSome = false := by
  simp only [command_names, List.mem_cons, List.mem_singleton, not_or, List.not_mem_nil,
    or_false] at h
  obtain ⟨h1, h2, h3, h4, h5, h6, h7, h8⟩ := h
  simp [funcs, h1, h2, h3, h4, h5, h6, h7, h8]

/-- C10, counterexample: the line of 125 spaces followed by `rx` has the
first token `rx`, which is no command name, and no NUL; `getline` stores only
its first 126 characters, the iteration reads the command `r` without arguments and
steps the cores without end: after fuel for three rounds it is still running
and has issued three step calls. -/
theorem C10_long_line_unknown_command_steps :
    (strtok_all long_line_rx []).head? = some ['r', 'x'] ∧
    ['r', 'x'] ∉ command_names ∧
    (run_iteration stub_core 32 3 true long_line_rx (fresh_sim 1 0)).is_running = true ∧
    (run_iteration stub_core 32 3 true long_line_rx (fresh_sim 1 0)).state.calls
      = rounds_calls 1 1 true 3 := by
  decide

/-- C10, amended: for every input line of at most 126 characters, none of
them NUL, whose first token is not one of the command names `r`, `rs`, `rp`,
`rps`, `reg`, `mem`, `until`, `q`, whatever its arguments and whatever the
cores would do, one iteration of the console returns without raising: it
issues no step call and leaves the memory and every core unchanged; it only
writes the prompt. -/
theorem C10_unknown_command_is_noop (cm : core_model) (NGPR fuel : Nat) (line : List Char)
    (cmd : cstring) (args : List cstring) (s : sim_t)
    (hlen : line.length ≤ 126) (hnul : ∀ c ∈ line, c.toNat ≠ 0)
    (htok : strtok_all line [] = cmd :: args) (hcmd : cmd ∉ command_names) :
    run_iteration cm NGPR fuel true line s = outcome.ret () { s with out := s.out ++ [':'] } := by
  have hget : c_str (getline line) = line := by
    rw [getline, List.take_of_length_le hlen, c_str, List.takeWhile_eq_self_iff]
    intro c hc
    exact decide_eq_true (hnul c hc)
  have hnone : funcs cm NGPR fuel cmd = none := by
    have h := funcs_unknown cm NGPR fuel cmd hcmd
    cases hf : funcs cm NGPR fuel cmd with
    | none => rfl
    | some f => rw [hf] at h; cases h
  simp only [run_iteration, Bool.not_true, Bool.false_eq_true, if_false, hget, htok, hnone,
    try_catch]

/-- C10, witness: the theorem applied at a concrete input. -/
theorem C10_unknown_command_is_noop_witness :
    run_iteration trapping_core 32 5 true ['f', 'o', 'o', ' ', '1'] (fresh_sim 2 16)
      = outcome.ret () { fresh_sim 2 16 with out := (fresh_sim 2 16).out ++ [':'] } :=
  C10_unknown_command_is_noop trapping_core 32 5 ['f', 'o', 'o', ' ', '1'] ['f', 'o', 'o']
    [['1']] (fresh_sim 2 16) (by decide) (by decide) (by decide) (by decide)


/-! ## C12 and C13: `interactive_run_proc` -/

theorem atoi_lt (a : cstring) : atoi a < 2 ^ 31 := by
  simp only [atoi, to_int]
  omega

theorem proc_step_calls (cm : core_model) (k n : Nat) (noisy : Bool) (s : sim_t)
    (hk : k < s.procs.length) :
    (proc_step cm (k : Int) n noisy s).state.calls
      = s.calls ++ [{ proc := k, n := n, noisy := noisy }] := by
  have hget : s.procs[k]? = some s.procs[k] := List.getElem?_eq_getElem hk
  show (proc_step cm (Int.ofNat k) n noisy s).state.calls = _
  simp only [proc_step, hget]
  cases (cm.step s.procs[k] s.mem n noisy).2.2 <;> rfl

/-- What `interactive_run_proc` does on the argument lists the claim C13
describes correctly: nothing, when the core argument is missing or reads as
an index of `nprocs` or more. -/
theorem run_proc_noop (cm : core_model) (fuel : Nat) (a : List cstring) (noisy : Bool)
    (s : sim_t) (h : a.length = 0 ∨ atoi (a.getD 0 []) ≥ s.nprocs) :
    interactive_run_proc cm fuel a noisy s = outcome.ret () s := by
  unfold interactive_run_proc
  by_cases h0 : a.length = 0
  · rw [if_pos h0]
  · rw [if_neg h0]
    have h1 : atoi (a.getD 0 []) ≥ s.nprocs := by
      rcases h with h | h
      · exact absurd h h0
      · exact h
    simp only [if_pos h1]

/-- C13, at the failing input: on two cores the arguments `-1 5` read as the
core index -1, outside `0..nprocs-1`; `interactive_run_proc` compares only
`p >= nprocs`, does not return and calls `procs[-1].step(5, noisy)`, an
access outside the array of cores. The arguments `9 5` are the no-op the
claim describes. -/
theorem C13_run_proc_negative_index_not_noop :
    atoi ['-', '1'] = -1 ∧
    interactive_run_proc stub_core 2 [['-', '1'], ['5']] true (fresh_sim 2 0)
      = outcome.undefined (fresh_sim 2 0) ∧
    interactive_run_proc stub_core 2 [['-', '1']] false (fresh_sim 2 0)
      = outcome.undefined (fresh_sim 2 0) ∧
    interactive_run_proc stub_core 2 [['9'], ['5']] true (fresh_sim 2 0)
      = outcome.ret () (fresh_sim 2 0) := by
  decide

/-! ## C15 and C19: the sized memory reader, continued -/

theorem get_mem_state (s : sim_t) (args : List cstring) : (get_mem s args).state = s := by
  unfold get_mem
  by_cases h : args.length ≠ 1
  · rw [if_pos h]; rfl
  · rw [if_neg h]
    simp only
    cases get_mem_switch s.mem s.memsz (to_word (strtol (args.getD 0 []) 16)) <;> rfl

/-- C15: for every state and every argument list, `get_mem` ends with a
value or with a trap and leaves the simulator state (the memory, every core,
the calls issued) as it found it; a second read with the same arguments right
after the first gives the same outcome: the same value, or the same fault. -/
theorem C15_get_mem_idempotent (s : sim_t) (args : List cstring) :
    ((∃ v, get_mem s args = outcome.ret v s) ∨ (∃ t, get_mem s args = outcome.thrown t s)) ∧
    (get_mem s args).state = s ∧
    get_mem (get_mem s args).state args = get_mem s args := by
  refine ⟨?_, get_mem_state s args, by rw [get_mem_state]⟩
  unfold get_mem
  by_cases h : args.length ≠ 1
  · rw [if_pos h]; exact Or.inr ⟨_, rfl⟩
  · rw [if_neg h]
    simp only
    cases get_mem_switch s.mem s.memsz (to_word (strtol (args.getD 0 []) 16)) with
    | ok v => exact Or.inl ⟨v, rfl⟩
    | error t => exact Or.inr ⟨t, rfl⟩

theorem spec_width_values (addr : Nat) :
    (spec_width addr = 1 ∨ spec_width addr = 2 ∨ spec_width addr = 4 ∨ spec_width addr = 8) ∧
    addr % spec_width addr = 0 ∧
    (addr % 2 = 0 → 2 ≤ spec_width addr) ∧ (addr % 4 = 0 → 4 ≤ spec_width addr) ∧
    (addr % 8 = 0 → 8 ≤ spec_width addr) := by
  unfold spec_width
  split_ifs with h0 h4 h2 <;> omega

/-- C19: for every state and every single argument, with `addr` the address
`get_mem` parses from it, the load `get_mem` performs has a width `w` that
is 1, 2, 4 or 8, divides `addr` (`addr mod w == 0`), and is at least every
power of two up to 8 that divides `addr`. -/
theorem C19_get_mem_width_is_largest_aligned (s : sim_t) (a : cstring) :
    ∃ w, get_mem s [a]
        = load_outcome (mmu_load s.mem s.memsz w (to_word (strtol a 16))) s ∧
      w = spec_width (to_word (strtol a 16)) ∧
      (w = 1 ∨ w = 2 ∨ w = 4 ∨ w = 8) ∧
      to_word (strtol a 16) % w = 0 ∧
      (∀ k, k ≤ 3 → to_word (strtol a 16) % 2 ^ k = 0 → 2 ^ k ≤ w) := by
  obtain ⟨hv, hd, h2, h4, h8⟩ := spec_width_values (to_word (strtol a 16))
  refine ⟨spec_width (to_word (strtol a 16)), ?_, rfl, hv, hd, ?_⟩
  · rw [get_mem_one_arg, get_mem_switch_eq]
  · intro k hk hdiv
    have hcases : k = 0 ∨ k = 1 ∨ k = 2 ∨ k = 3 := by omega
    rcases hcases with h | h | h | h <;> subst h
    · rcases hv with h | h | h | h <;> rw [h] <;> decide
    · exact h2 hdiv
    · exact h4 hdiv
    · exact h8 hdiv

/-- C19, witness: the address `c` (12) is read with width 4. -/
theorem C19_get_mem_width_is_largest_aligned_witness :
    ∃ w, get_mem (fresh_sim 1 16) [['c']]
        = load_outcome
            (mmu_load (fresh_sim 1 16).mem (fresh_sim 1 16).memsz w (to_word (strtol ['c'] 16)))
            (fresh_sim 1 16) ∧
      w = spec_width (to_word (strtol ['c'] 16)) ∧
      (w = 1 ∨ w = 2 ∨ w = 4 ∨ w = 8) ∧
      to_word (strtol ['c'] 16) % w = 0 ∧
      (∀ k, k ≤ 3 → to_word (strtol ['c'] 16) % 2 ^ k = 0 → 2 ^ k ≤ w) :=
  C19_get_mem_width_is_largest_aligned (fresh_sim 1 16) ['c']

/-! ## C16: `interactive_until` on an unknown subject -/

/-- C16: for every argument list of `until` whose first argument, if there
is one, is none of `reg`, `pc`, `mem`, the handler returns at once (given
fuel for one pass of its loop): no reader is chosen, no step call is issued,
no trap is raised and the state is unchanged. -/
theorem C16_until_unknown_subject_returns (cm : core_model) (NGPR fuel : Nat)
    (args : List cstring) (s : sim_t)
    (hsubj : ∀ subj, args.head? = some subj →
      subj ≠ ['r', 'e', 'g'] ∧ subj ≠ ['p', 'c'] ∧ subj ≠ ['m', 'e', 'm']) :
    interactive_until cm NGPR (fuel + 1) args s = outcome.ret () s ∧
    (3 ≤ args.length →
      until_reader NGPR (args.getD 0 []) ((args.drop 1).take (args.length - 2)) s = none) := by
  have hreader : 3 ≤ args.length →
      until_reader NGPR (args.getD 0 []) ((args.drop 1).take (args.length - 2)) s = none := by
    intro hlen
    cases args with
    | nil => simp at hlen
    | cons subj rest =>
      obtain ⟨h1, h2, h3⟩ := hsubj subj rfl
      simp [until_reader, h1, h2, h3]
  refine ⟨?_, hreader⟩
  unfold interactive_until
  by_cases hlen : args.length < 3
  · rw [if_pos hlen]
  · rw [if_neg hlen]
    simp only [until_loop, hreader (by omega)]

/-- C16, witness: `until foo 0 ff` with a core that would trap. -/
theorem C16_until_unknown_subject_returns_witness :
    interactive_until trapping_core 32 (0 + 1) [['f', 'o', 'o'], ['0'], ['f', 'f']]
        (fresh_sim 1 0) = outcome.ret () (fresh_sim 1 0) ∧
    (3 ≤ [['f', 'o', 'o'], ['0'], ['f', 'f']].length →
      until_reader 32 ([['f', 'o', 'o'], ['0'], ['f', 'f']].getD 0 [])
        (([['f', 'o', 'o'], ['0'], ['f', 'f']].drop 1).take
          ([['f', 'o', 'o'], ['0'], ['f', 'f']].length - 2)) (fresh_sim 1 0) = none) :=
  C16_until_unknown_subject_returns trapping_core 32 0 [['f', 'o', 'o'], ['0'], ['f', 'f']]
    (fresh_sim 1 0) (by decide)


/-! ## Lemmas on single rounds -/

theorem proc_step_eq (cm : core_model) (k n : Nat) (noisy : Bool) (s : sim_t) (p : processor_t)
    (hget : s.procs[k]? = some p) :
    proc_step cm (k : Int) n noisy s =
      (match (cm.step p s.mem n noisy).2.2 with
       | none => outcome.ret ()
           { s with procs := s.procs.set k (cm.step p s.mem n noisy).1,
                    mem := (cm.step p s.mem n noisy).2.1,
                    calls := s.calls ++ [{ proc := k, n := n, noisy := noisy }] }
       | some t => outcome.thrown t
           { s with procs := s.procs.set k (cm.step p s.mem n noisy).1,
                    mem := (cm.step p s.mem n noisy).2.1,
                    calls := s.calls ++ [{ proc := k, n := n, noisy := noisy }] }) := by
  show proc_step cm (Int.ofNat k) n noisy s = _
  simp only [proc_step, hget]

theorem proc_step_ret (cm : core_model) (k n : Nat) (noisy : Bool) (s s1 : sim_t)
    (hk : k < s.procs.length) (h : proc_step cm (k : Int) n noisy s = outcome.ret () s1) :
    s1.calls = s.calls ++ [{ proc := k, n := n, noisy := noisy }] ∧
    s1.procs.length = s.procs.length := by
  rw [proc_step_eq cm k n noisy s s.procs[k] (List.getElem?_eq_getElem hk)] at h
  cases hr : (cm.step s.procs[k] s.mem n noisy).2.2 with
  | none =>
    rw [hr] at h
    simp only [outcome.ret.injEq, true_and] at h
    subst h
    simp
  | some t =>
    rw [hr] at h
    cases h

theorem step_round_ret (cm : core_model) (il : Nat) (noisy : Bool) :
    ∀ (k i : Nat) (s s1 : sim_t), i + k ≤ s.procs.length →
    step_round cm il noisy k i s = outcome.ret () s1 →
    s1.calls = s.calls ++
        (List.range' i k).map (fun i => { proc := i, n := il, noisy := noisy }) ∧
      s1.procs.length = s.procs.length := by
  intro k
  induction k with
  | zero =>
    intro i s s1 _ h
    simp only [step_round, outcome.ret.injEq, true_and] at h
    subst h
    simp
  | succ k ih =>
    intro i s s1 hik h
    simp only [step_round] at h
    cases hp : proc_step cm (i : Int) il noisy s with
    | ret u s2 =>
      rw [hp] at h
      simp only [outcome.bind] at h
      obtain ⟨hc2, hl2⟩ := proc_step_ret cm i il noisy s s2 (by omega) hp
      obtain ⟨hc1, hl1⟩ := ih (i + 1) s2 s1 (by omega) h
      refine ⟨?_, by omega⟩
      rw [hc1, hc2]; simp [List.range'_succ]
    | thrown t s2 => rw [hp] at h; cases h
    | exited c s2 => rw [hp] at h; cases h
    | undefined s2 => rw [hp] at h; cases h
    | running s2 => rw [hp] at h; cases h

theorem full_round_ret (cm : core_model) (il : Nat) (noisy : Bool) (s s1 : sim_t)
    (h : step_round cm il noisy s.procs.length 0 s = outcome.ret () s1) :
    s1.calls = s.calls ++ round_calls s.procs.length il noisy ∧
    s1.procs.length = s.procs.length := by
  obtain ⟨hc, hl⟩ := step_round_ret cm il noisy s.procs.length 0 s s1 (by omega) h
  exact ⟨by rw [hc, round_calls, List.range_eq_range'], hl⟩

theorem step_all_single_round (cm : core_model) (fuel n : Nat) (noisy : Bool) (s : sim_t)
    (hn : 0 < n) (hw : n < WORD) :
    step_all cm (fuel + 2) n n noisy s
      = (step_round cm n noisy s.procs.length 0 s).bind (fun _ s1 => outcome.ret () s1) := by
  have hmod : (0 + n) % WORD = n := by rw [Nat.zero_add]; exact Nat.mod_eq_of_lt hw
  simp only [step_all, step_all_loop, if_pos hn, hmod, Nat.lt_irrefl, if_false]

theorem rounds_calls_succ_right (nprocs il : Nat) (noisy : Bool) (k : Nat) :
    rounds_calls nprocs il noisy (k + 1)
      = rounds_calls nprocs il noisy k ++ round_calls nprocs il noisy := by
  induction k with
  | zero => simp [rounds_calls]
  | succ k ih =>
    show round_calls nprocs il noisy ++ rounds_calls nprocs il noisy (k + 1)
      = (round_calls nprocs il noisy ++ rounds_calls nprocs il noisy k)
          ++ round_calls nprocs il noisy
    rw [ih, List.append_assoc]

/-- Along a run of rounds that return, the calls issued are whole rounds and
the number of cores does not change. -/
theorem rounds_along (cm : core_model) (il : Nat) (noisy : Bool) (σ : Nat → sim_t) (k : Nat)
    (hround : ∀ j, j < k →
      step_round cm il noisy (σ j).procs.length 0 (σ j) = outcome.ret () (σ (j + 1))) :
    (σ k).calls = (σ 0).calls ++ rounds_calls (σ 0).procs.length il noisy k ∧
    (σ k).procs.length = (σ 0).procs.length := by
  induction k with
  | zero => simp [rounds_calls]
  | succ k ih =>
    obtain ⟨hc, hl⟩ := ih (fun j hj => hround j (by omega))
    obtain ⟨hc1, hl1⟩ := full_round_ret cm il noisy (σ k) (σ (k + 1)) (hround k (by omega))
    refine ⟨?_, by omega⟩
    rw [hc1, hc, hl, rounds_calls_succ_right, List.append_assoc]

/-! ## C11: `interactive_until` -/

theorem until_loop_polls (cm : core_model) (NGPR : Nat) (subject : cstring)
    (args2 : List cstring) (val : Nat) (σ : Nat → sim_t) (k : Nat)
    (hround : ∀ j, j < k →
      step_round cm 1 false (σ j).procs.length 0 (σ j) = outcome.ret () (σ (j + 1)))
    (hne : ∀ j, j < k → ∃ v, until_reader NGPR subject args2 (σ j)
      = some (outcome.ret v (σ j)) ∧ v ≠ val)
    (heq : until_reader NGPR subject args2 (σ k) = some (outcome.ret val (σ k))) :
    ∀ (r j fuel : Nat), j + r = k → r < fuel →
      until_loop cm NGPR subject args2 val fuel (σ j) = outcome.ret () (σ k) := by
  intro r
  induction r with
  | zero =>
    intro j fuel hj hf
    obtain ⟨f, rfl⟩ : ∃ f, fuel = f + 1 := ⟨fuel - 1, by omega⟩
    have hjk : j = k := by omega
    subst hjk
    simp only [until_loop, heq, outcome.bind, if_true]
  | succ r ih =>
    intro j fuel hj hf
    obtain ⟨f, rfl⟩ : ∃ f, fuel = f + 2 := ⟨fuel - 2, by omega⟩
    obtain ⟨v, hv, hvne⟩ := hne j (by omega)
    have hstep : step_all cm (f + 2) 1 1 false (σ j) = outcome.ret () (σ (j + 1)) := by
      rw [step_all_single_round cm f 1 false (σ j) (by decide) (by decide),
        hround j (by omega)]
      rfl
    have hnext := ih (j + 1) (f + 1) (by omega) (by omega)
    rw [until_loop]
    simp only [hv, outcome.bind, if_neg hvne, hstep, hnext]

theorem counting_round (j : Nat) :
    step_round counting_core 1 false (counting_state j).procs.length 0 (counting_state j)
      = outcome.ret () (counting_state (j + 1)) := by
  show step_round counting_core 1 false 1 0 (counting_state j) = _
  have hget : (counting_state j).procs[0]?
      = some { id := 0, pc := 0, R := (List.replicate 32 0).set 3 j } := rfl
  rw [step_round, show ((0 : Nat) : Int) = ((0 : Nat) : Int) from rfl,
    proc_step_eq counting_core 0 1 false (counting_state j) _ hget]
  simp only [counting_core, outcome.bind, step_round, counting_state, List.replicate_succ',
    outcome.ret.injEq, true_and]
  rfl

theorem counting_reader (j : Nat) :
    until_reader 32 ['r', 'e', 'g'] [['0'], ['3']] (counting_state j)
      = some (outcome.ret j (counting_state j)) := by
  rfl

/-! ## C14: headless `run` -/

theorem run_headless_throws (cm : core_model) (NGPR : Nat) (input : List (List Char))
    (σ : Nat → sim_t) (t : trap_t) (s1 : sim_t) :
    ∀ (i j fuel : Nat),
      (∀ m, j ≤ m → m < j + i →
        step_round cm 100 false (σ m).procs.length 0 (σ m) = outcome.ret () (σ (m + 1))) →
      step_round cm 100 false (σ (j + i)).procs.length 0 (σ (j + i)) = outcome.thrown t s1 →
      i + 2 ≤ fuel →
      run cm NGPR false fuel input (σ j) = outcome.thrown t s1 := by
  intro i
  induction i with
  | zero =>
    intro j fuel _ hthrow hf
    obtain ⟨f, rfl⟩ : ∃ f, fuel = f + 2 := ⟨fuel - 2, by omega⟩
    rw [show f + 2 = (f + 1) + 1 from rfl, run]
    simp only [run_iteration, Bool.not_false, if_true]
    rw [step_all_single_round cm f 100 false (σ j) (by decide) (by decide)]
    rw [Nat.add_zero] at hthrow
    rw [hthrow]
    rfl
  | succ i ih =>
    intro j fuel hround hthrow hf
    obtain ⟨f, rfl⟩ : ∃ f, fuel = f + 2 := ⟨fuel - 2, by omega⟩
    have hnext := ih (j + 1) (f + 1)
      (fun m hm1 hm2 => hround m (by omega) (by omega))
      (by rw [show j + 1 + i = j + (i + 1) by omega]; exact hthrow) (by omega)
    rw [show f + 2 = (f + 1) + 1 from rfl, run]
    simp only [run_iteration, Bool.not_false, if_true]
    rw [step_all_single_round cm f 100 false (σ j) (by decide) (by decide),
      hround j (by omega) (by omega)]
    simp only [outcome.bind, Bool.false_eq_true, if_false]
    exact hnext

/-! ## C17: the target of `until` -/

/-- C17, at the failing input: register 3 of the core holds `v = 2^63`, whose
16-digit text is `8000000000000000`; `strtol` clamps the text to `LONG_MAX`,
so the target `until reg 0 3 8000000000000000` compares with is `2^63 - 1`,
not `v`: the handler issues step rounds and, the register never changing,
is still polling when the fuel is used up. For `v = 2^63 - 1` the text reads
back as `v` and the handler returns without a round. -/
theorem C17_until_target_clamped_at_long_max :
    hex16 (2 ^ 63) = ['8', '0', '0', '0', '0', '0', '0', '0', '0', '0', '0', '0', '0', '0', '0', '0'] ∧
    to_word (strtol (hex16 (2 ^ 63)) 16) = 2 ^ 63 - 1 ∧
    get_reg 32 (reg3_sim (2 ^ 63)) [['0'], ['3']]
      = outcome.ret (2 ^ 63) (reg3_sim (2 ^ 63)) ∧
    (interactive_until stub_core 32 3 [['r', 'e', 'g'], ['0'], ['3'], hex16 (2 ^ 63)]
      (reg3_sim (2 ^ 63))).is_running = true ∧
    (interactive_until stub_core 32 3 [['r', 'e', 'g'], ['0'], ['3'], hex16 (2 ^ 63)]
      (reg3_sim (2 ^ 63))).state.calls = rounds_calls 1 1 false 3 ∧
    interactive_until stub_core 32 3 [['r', 'e', 'g'], ['0'], ['3'], hex16 (2 ^ 63 - 1)]
      (reg3_sim (2 ^ 63 - 1)) = outcome.ret () (reg3_sim (2 ^ 63 - 1)) := by
  decide


/-! ## Reading back the 16-digit text of a value -/

theorem hex_digit_facts :
    ∀ d, d < 16 →
      digit_val (hex_digit d) = some d ∧ isspace (hex_digit d) = false ∧
      (hex_digit d).toNat ≠ 45 ∧ (hex_digit d).toNat ≠ 43 ∧
      (hex_digit d).toNat ≠ 120 ∧ (hex_digit d).toNat ≠ 88 := by
  decide

theorem strtol_digits_hex (v : Nat) :
    ∀ (n acc : Nat),
      strtol_digits 16 ((List.range n).reverse.map (fun i => hex_digit (v / 16 ^ i % 16))) acc
        = acc * 16 ^ n + v % 16 ^ n := by
  intro n
  induction n with
  | zero => intro acc; simp [strtol_digits, Nat.mod_one]
  | succ n ih =>
    intro acc
    have hd : v / 16 ^ n % 16 < 16 := Nat.mod_lt _ (by decide)
    have hv := (hex_digit_facts _ hd).1
    rw [List.range_succ, List.reverse_append, List.reverse_singleton, List.singleton_append,
      List.map_cons, strtol_digits, hv]
    simp only [hd, if_true]
    rw [ih, Nat.mod_pow_succ, Nat.pow_succ]
    ring

/-- For every value below `2^63`, `strtol` in base 16 reads the 16-digit
text of the value back as the value. -/
theorem strtol_hex16 (v : Nat) (hv : v < 2 ^ 63) : to_word (strtol (hex16 v) 16) = v := by
  have hw : v % WORD = v := Nat.mod_eq_of_lt (by simp only [WORD]; omega)
  have h15 : v / 16 ^ 15 % 16 < 16 := Nat.mod_lt _ (by decide)
  have h14 : v / 16 ^ 14 % 16 < 16 := Nat.mod_lt _ (by decide)
  obtain ⟨_, hs15, hm15, hp15, _, _⟩ := hex_digit_facts _ h15
  obtain ⟨_, _, _, _, hx14, hX14⟩ := hex_digit_facts _ h14
  have hsplit : hex16 v
      = hex_digit (v / 16 ^ 15 % 16) :: hex_digit (v / 16 ^ 14 % 16)
          :: (List.range 14).reverse.map (fun i => hex_digit (v / 16 ^ i % 16)) := by
    simp only [hex16, hw]
    rw [List.range_succ, List.reverse_append, List.reverse_singleton, List.singleton_append,
      List.map_cons, List.range_succ, List.reverse_append, List.reverse_singleton,
      List.singleton_append, List.map_cons]
  have hdigits := strtol_digits_hex v 16 0
  have hfull : (List.range 16).reverse.map (fun i => hex_digit (v / 16 ^ i % 16)) = hex16 v := by
    simp only [hex16, hw]
  rw [hfull] at hdigits
  have hmod : v % 16 ^ 16 = v := Nat.mod_eq_of_lt (by norm_num; omega)
  have hdrop : (hex16 v).dropWhile isspace = hex16 v := by
    rw [hsplit, List.dropWhile_cons_of_neg (by rw [hs15]; decide)]
  have hsign : strtol_sign (hex16 v) = (false, hex16 v) := by
    rw [hsplit]
    simp only [strtol_sign, if_neg hm15, if_neg hp15]
  have hskip : strtol_skip_0x 16 (hex16 v) = hex16 v := by
    rw [hsplit]
    simp only [strtol_skip_0x]
    rw [if_neg]
    rintro ⟨_, _, h | h⟩
    · exact hx14 h
    · exact hX14 h
  simp only [strtol, hdrop, hsign, hskip, hdigits, hmod, Nat.zero_mul, Nat.zero_add,
    Bool.false_eq_true, if_false, LONG_MAX, to_word]
  omega


/-- For every value `v` below `2^63`: when the last argument of `until` is
the 16-digit text of `v` and the reader of the subject returns `v`, the
handler returns at once, without a step round. -/
theorem until_stops_at_once_below_2_63 (cm : core_model) (NGPR fuel : Nat)
    (args : List cstring) (v : Nat) (s : sim_t)
    (hv : v < 2 ^ 63) (hlen : 3 ≤ args.length)
    (hlast : args.getD (args.length - 1) [] = hex16 v)
    (hread : until_reader NGPR (args.getD 0 []) ((args.drop 1).take (args.length - 2)) s
      = some (outcome.ret v s)) :
    interactive_until cm NGPR (fuel + 1) args s = outcome.ret () s := by
  unfold interactive_until
  rw [if_neg (by omega)]
  simp only [until_loop, hread, outcome.bind, hlast, strtol_hex16 v hv, if_true]


/-! ## C18: termination of `step_all` -/

theorem step_all_loop_wraps_forever (cm : core_model) (hcm : cm.returns) (noisy : Bool) :
    ∀ (fuel j : Nat) (s : sim_t), j = 0 ∨ j = 2 ^ 63 →
      (step_all_loop cm (2 ^ 64 - 1) (2 ^ 63) noisy fuel j s).is_running = true := by
  intro fuel
  induction fuel with
  | zero => intro j s _; rfl
  | succ f ih =>
    intro j s hj
    obtain ⟨s1, h1, _, _, _⟩ := step_full_round_returns cm hcm (2 ^ 63) noisy s
    have hlt : j < 2 ^ 64 - 1 := by
      rcases hj with h | h <;> rw [h] <;> decide
    have hnext : (j + 2 ^ 63) % WORD = 0 ∨ (j + 2 ^ 63) % WORD = 2 ^ 63 := by
      rcases hj with h | h <;> rw [h]
      · exact Or.inr (by decide)
      · exact Or.inl (by decide)
    simp only [step_all_loop, if_pos hlt, h1, outcome.bind]
    exact ih _ s1 hnext

/-- C18, counterexample: `total_steps = 2^64 - 1` and `interleave = 2^63`
are machine words with `interleave >= 1`, and every step call of the stub
core returns, but the counter takes the values 0 and `2^63` in turn, both
below `total_steps`: whatever the fuel, `step_all` is still running. -/
theorem C18_step_all_wrapping_counter_never_terminates :
    2 ^ 64 - 1 < WORD ∧ 2 ^ 63 < WORD ∧ 1 ≤ 2 ^ 63 ∧ stub_core.returns ∧
    ∀ fuel, (step_all stub_core fuel (2 ^ 64 - 1) (2 ^ 63) false (fresh_sim 1 0)).is_running
      = true :=
  ⟨by decide, by decide, by decide, fun _ _ _ _ => rfl,
   fun fuel => step_all_loop_wraps_forever stub_core (fun _ _ _ _ => rfl) false fuel 0
     (fresh_sim 1 0) (Or.inl rfl)⟩

theorem rounds_calls_length (nprocs il : Nat) (noisy : Bool) (k : Nat) :
    (rounds_calls nprocs il noisy k).length = k * nprocs := by
  induction k with
  | zero => simp [rounds_calls]
  | succ k ih =>
    rw [rounds_calls, List.length_append, ih, Nat.add_mul]
    simp [round_calls]
    omega

/-- C18, amended: for every `total_steps` and every `interleave >= 1` with
`ceil(total_steps / interleave) * interleave < 2^64` (the loop counter does
not wrap), provided every core's step call returns,
`step_all(total_steps, interleave, noisy)` terminates: with fuel for
`ceil(total_steps / interleave)` rounds it returns, after exactly
`ceil(total_steps / interleave) * nprocs` step calls. -/
theorem C18_step_all_terminates_without_wrap (cm : core_model) (hcm : cm.returns)
    (n il : Nat) (noisy : Bool) (s : sim_t)
    (hil : 1 ≤ il) (hwrap : (n + il - 1) / il * il < WORD) :
    ∃ fuel s1, step_all cm fuel n il noisy s = outcome.ret () s1 ∧
      s1.calls.length = s.calls.length + (n + il - 1) / il * s.procs.length := by
  obtain ⟨s1, h1, hc1, _, _⟩ :=
    step_all_loop_returns cm hcm n il noisy hil hwrap ((n + il - 1) / il) 0
      ((n + il - 1) / il + 1) s (by omega) (by omega)
  refine ⟨(n + il - 1) / il + 1, s1, ?_, ?_⟩
  · rw [← h1, Nat.zero_mul]; rfl
  · rw [hc1, List.length_append, rounds_calls_length]

/-- C18, witness: `step_all(5, 2, true)` on two stub cores. -/
theorem C18_step_all_terminates_without_wrap_witness :
    ∃ fuel s1, step_all stub_core fuel 5 2 true (fresh_sim 2 0) = outcome.ret () s1 ∧
      s1.calls.length
        = (fresh_sim 2 0).calls.length + (5 + 2 - 1) / 2 * (fresh_sim 2 0).procs.length :=
  C18_step_all_terminates_without_wrap stub_core (fun _ _ _ _ => rfl) 5 2 true (fresh_sim 2 0)
    (by decide) (by decide)

/-! ## C20: termination of `interactive_run_proc` -/

theorem run_proc_forever_running (cm : core_model) (hcm : cm.returns) (p : Nat)
    (noisy : Bool) :
    ∀ (fuel : Nat) (s : sim_t), p < s.procs.length →
      ∃ s1, run_proc_forever cm (p : Int) noisy fuel s = outcome.running s1 ∧
        s1.calls = s.calls ++ List.replicate fuel { proc := p, n := 1, noisy := noisy } := by
  intro fuel
  induction fuel with
  | zero => intro s _; exact ⟨s, rfl, by simp⟩
  | succ f ih =>
    intro s hp
    obtain ⟨s1, h1, hc1, hl1, _⟩ := proc_step_returns cm hcm p 1 noisy s hp
    obtain ⟨s2, h2, hc2⟩ := ih s1 (by omega)
    refine ⟨s2, ?_, ?_⟩
    · simp only [run_proc_forever, h1, outcome.bind, h2]
    · rw [hc2, hc1, List.replicate_succ]; simp

/-- C20, counterexample: with a core whose step traps, `rp 0` (one argument,
core index in range) issues one step call and ends with the trap: it
terminates although the list does not have two arguments, and does not step
the core forever. -/
theorem C20_run_proc_one_argument_ends_on_trap :
    atoi ['0'] = 0 ∧
    interactive_run_proc trapping_core 5 [['0']] true (fresh_sim 1 0)
      = outcome.thrown trap_t.illegal_instruction
          { fresh_sim 1 0 with calls := [{ proc := 0, n := 1, noisy := true }] } := by
  decide

/-- C20, amended: provided every step call of the cores returns, for every
argument list whose first argument reads as a core index `p` with
`0 <= p < nprocs`: with exactly two arguments `interactive_run_proc` issues
the single call `step(count, noisy)` on core `p` and returns; with one
argument, or with three or more, it never returns: whatever the fuel `k`,
it is still running after exactly `k` calls `step(1, noisy)` on core `p`. -/
theorem C20_run_proc_terminates_iff_two_arguments (cm : core_model) (hcm : cm.returns)
    (a : List cstring) (p : Nat) (noisy : Bool) (s : sim_t)
    (hne : a ≠ []) (hp : atoi (a.getD 0 []) = (p : Int)) (hrange : p < s.procs.length) :
    (a.length = 2 → ∀ fuel, ∃ s1,
      interactive_run_proc cm fuel a noisy s = outcome.ret () s1 ∧
      s1.calls = s.calls ++ [{ proc := p, n := to_word (atoi (a.getD 1 [])), noisy := noisy }]) ∧
    (a.length ≠ 2 → ∀ k, ∃ s1,
      interactive_run_proc cm k a noisy s = outcome.running s1 ∧
      s1.calls = s.calls ++ List.replicate k { proc := p, n := 1, noisy := noisy }) := by
  have hlen : ¬ (a.length = 0) := by
    intro h; exact hne (List.length_eq_zero.mp h)
  have hnot : ¬ ((p : Int) ≥ s.nprocs) := by
    simp only [sim_t.nprocs, ge_iff_le, Nat.cast_le]; omega
  constructor
  · intro h2 fuel
    obtain ⟨s1, h1, hc1, _, _⟩ :=
      proc_step_returns cm hcm p (to_word (atoi (a.getD 1 []))) noisy s hrange
    refine ⟨s1, ?_, hc1⟩
    simp only [interactive_run_proc, if_neg hlen, hp, if_neg hnot, if_pos h2, h1]
  · intro h2 k
    obtain ⟨s1, h1, hc1⟩ := run_proc_forever_running cm hcm p noisy k s hrange
    refine ⟨s1, ?_, hc1⟩
    simp only [interactive_run_proc, if_neg hlen, hp, if_neg hnot, if_neg h2, h1]

/-- C20, witness: `rp 1 5` returns after one call, `rp 1` is still running
after any number of calls. -/
theorem C20_run_proc_terminates_iff_two_arguments_witness :
    (∃ s1, interactive_run_proc stub_core 0 [['1'], ['5']] true (fresh_sim 2 0)
        = outcome.ret () s1 ∧
      s1.calls = (fresh_sim 2 0).calls
        ++ [{ proc := 1, n := to_word (atoi ([['1'], ['5']].getD 1 [])), noisy := true }]) ∧
    (∀ k, ∃ s1, interactive_run_proc stub_core k [['1']] true (fresh_sim 2 0)
        = outcome.running s1 ∧
      s1.calls = (fresh_sim 2 0).calls
        ++ List.replicate k { proc := 1, n := 1, noisy := true }) :=
  ⟨(C20_run_proc_terminates_iff_two_arguments stub_core (fun _ _ _ _ => rfl) [['1'], ['5']] 1
      true (fresh_sim 2 0) (by decide) (by decide) (by decide)).1 (by decide) 0,
   (C20_run_proc_terminates_iff_two_arguments stub_core (fun _ _ _ _ => rfl) [['1']] 1
      true (fresh_sim 2 0) (by decide) (by decide) (by decide)).2 (by decide)⟩

/-! ## Lemmas on the steps of the core model -/

theorem stepped_length (cm : core_model) (k n : Nat) (noisy : Bool) (s : sim_t) :
    (stepped cm k n noisy s).procs.length = s.procs.length := by
  unfold stepped
  cases s.procs[k]? <;> simp

theorem batch_upto_length (cm : core_model) (n : Nat) (noisy : Bool) (q : Nat) (s : sim_t) :
    (batch_upto cm n noisy q s).procs.length = s.procs.length := by
  induction q with
  | zero => rfl
  | succ q ih => rw [batch_upto, stepped_length, ih]

theorem after_batches_length (cm : core_model) (n : Nat) (noisy : Bool) (b : Nat) (s : sim_t) :
    (after_batches cm n noisy b s).procs.length = s.procs.length := by
  induction b with
  | zero => rfl
  | succ b ih => rw [after_batches, batch_upto_length, ih]

theorem proc_step_of_trap (cm : core_model) (k n : Nat) (noisy : Bool) (s : sim_t)
    (hk : k < s.procs.length) :
    proc_step cm (k : Int) n noisy s =
      (match step_trap cm k n noisy s with
       | none => outcome.ret () (stepped cm k n noisy s)
       | some t => outcome.thrown t (stepped cm k n noisy s)) := by
  have hget : s.procs[k]? = some s.procs[k] := List.getElem?_eq_getElem hk
  rw [proc_step_eq cm k n noisy s s.procs[k] hget]
  simp only [step_trap, stepped, hget]

theorem step_round_upto (cm : core_model) (n : Nat) (noisy : Bool) (s : sim_t) :
    ∀ q, q ≤ s.procs.length →
      (∀ m, m < q → step_trap cm m n noisy (batch_upto cm n noisy m s) = none) →
      step_round cm n noisy s.procs.length 0 s
        = step_round cm n noisy (s.procs.length - q) q (batch_upto cm n noisy q s) := by
  intro q
  induction q with
  | zero => intro _ _; rfl
  | succ q ih =>
    intro hq hnone
    rw [ih (by omega) (fun m hm => hnone m (by omega))]
    obtain ⟨r, hr⟩ : ∃ r, s.procs.length - q = r + 1 := ⟨s.procs.length - q - 1, by omega⟩
    have hr2 : s.procs.length - (q + 1) = r := by omega
    rw [hr, hr2, step_round,
      proc_step_of_trap cm q n noisy _ (by rw [batch_upto_length]; omega),
      hnone q (by omega)]
    rfl

theorem full_round_of_no_trap (cm : core_model) (n : Nat) (noisy : Bool) (s : sim_t)
    (hnone : ∀ m, m < s.procs.length →
      step_trap cm m n noisy (batch_upto cm n noisy m s) = none) :
    step_round cm n noisy s.procs.length 0 s
      = outcome.ret () (batch_upto cm n noisy s.procs.length s) := by
  rw [step_round_upto cm n noisy s s.procs.length (le_refl _) hnone, Nat.sub_self]
  rfl

theorem round_throws_of_trap (cm : core_model) (n : Nat) (noisy : Bool) (s : sim_t)
    (q : Nat) (t : trap_t) (hq : q < s.procs.length)
    (hnone : ∀ m, m < q → step_trap cm m n noisy (batch_upto cm n noisy m s) = none)
    (htrap : step_trap cm q n noisy (batch_upto cm n noisy q s) = some t) :
    step_round cm n noisy s.procs.length 0 s
      = outcome.thrown t (stepped cm q n noisy (batch_upto cm n noisy q s)) := by
  rw [step_round_upto cm n noisy s q (by omega) hnone]
  obtain ⟨r, hr⟩ : ∃ r, s.procs.length - q = r + 1 := ⟨s.procs.length - q - 1, by omega⟩
  rw [hr, step_round, proc_step_of_trap cm q n noisy _ (by rw [batch_upto_length]; omega),
    htrap]
  rfl

theorem step_trap_of_returns (cm : core_model) (hcm : cm.returns) (k n : Nat) (noisy : Bool)
    (s : sim_t) : step_trap cm k n noisy s = none := by
  unfold step_trap
  cases s.procs[k]? with
  | none => rfl
  | some p => exact hcm p s.mem n noisy

theorem batch_upto_calls (cm : core_model) (n : Nat) (noisy : Bool) (s : sim_t) :
    ∀ q, q ≤ s.procs.length →
      (batch_upto cm n noisy q s).calls = s.calls ++ round_calls q n noisy := by
  intro q
  induction q with
  | zero => intro _; simp [batch_upto, round_calls]
  | succ q ih =>
    intro hq
    have hlt : q < (batch_upto cm n noisy q s).procs.length := by
      rw [batch_upto_length]; omega
    have hget := List.getElem?_eq_getElem hlt
    rw [batch_upto]
    simp only [stepped, hget]
    rw [ih (by omega)]
    simp [round_calls, List.range_succ]


/-- C14: in headless mode (a) an iteration of `run` is the call
`step_all(100, 100, false)`; (b) when the step calls of the cores return,
the iteration (given fuel for its one round) returns after one call
`step(100, false)` per core in index order; (c) a trap is not caught: if
the cores' step calls return during the first `i` batches and, in the next
batch, those of the cores before `q` return and the step call of core `q`
throws a trap, then `run` ends with that trap propagating, in the state the
throwing call leaves; (d) in interactive mode no trap raised inside a
command dispatched from the table leaves the iteration. -/
theorem C14_headless_run_does_not_catch (cm : core_model) (NGPR : Nat)
    (input : List (List Char)) :
    (∀ fuel line s,
      run_iteration cm NGPR fuel false line s = step_all cm fuel 100 100 false s) ∧
    (∀ fuel line s,
      (∀ m, m < s.procs.length →
        step_trap cm m 100 false (batch_upto cm 100 false m s) = none) →
      run_iteration cm NGPR (fuel + 2) false line s
        = outcome.ret () (batch_upto cm 100 false s.procs.length s) ∧
      (batch_upto cm 100 false s.procs.length s).calls
        = s.calls ++ round_calls s.procs.length 100 false) ∧
    (∀ (s : sim_t) (i q fuel : Nat) (t : trap_t),
      (∀ b, b < i → ∀ m, m < s.procs.length →
        step_trap cm m 100 false
          (batch_upto cm 100 false m (after_batches cm 100 false b s)) = none) →
      q < s.procs.length →
      (∀ m, m < q →
        step_trap cm m 100 false
          (batch_upto cm 100 false m (after_batches cm 100 false i s)) = none) →
      step_trap cm q 100 false
          (batch_upto cm 100 false q (after_batches cm 100 false i s)) = some t →
      i + 2 ≤ fuel →
      run cm NGPR false fuel input s
        = outcome.thrown t
            (stepped cm q 100 false
              (batch_upto cm 100 false q (after_batches cm 100 false i s)))) ∧
    (∀ fuel line s t s1, strtok_all (c_str (getline line)) [] ≠ [] →
      run_iteration cm NGPR fuel true line s ≠ outcome.thrown t s1) := by
  refine ⟨?_, ?_, ?_, ?_⟩
  · intro fuel line s
    simp only [run_iteration, Bool.not_false, if_true]
  · intro fuel line s hnone
    refine ⟨?_, batch_upto_calls cm 100 false s s.procs.length (le_refl _)⟩
    simp only [run_iteration, Bool.not_false, if_true]
    rw [step_all_single_round cm fuel 100 false s (by decide) (by decide),
      full_round_of_no_trap cm 100 false s hnone]
    rfl
  · intro s i q fuel t hbatches hq hnone htrap hf
    have hlen : ∀ b, (after_batches cm 100 false b s).procs.length = s.procs.length :=
      fun b => after_batches_length cm 100 false b s
    refine run_headless_throws cm NGPR input (fun b => after_batches cm 100 false b s) t _
      i 0 fuel ?_ ?_ hf
    · intro m _ hm
      exact full_round_of_no_trap cm 100 false (after_batches cm 100 false m s)
        (fun c hc => hbatches m (by omega) c (by rw [hlen] at hc; exact hc))
    · rw [Nat.zero_add]
      exact round_throws_of_trap cm 100 false (after_batches cm 100 false i s) q t
        (by rw [hlen]; exact hq) hnone htrap
  · intro fuel line s t s1 htok
    exact run_iteration_dispatch_catches cm NGPR fuel line s htok t s1

/-- C14, witness: two cores, of which core 1 traps in the second batch:
headless `run` ends with that trap, after the first batch, the call on core
0 and the throwing call on core 1. -/
theorem C14_headless_run_does_not_catch_witness :
    run late_trapping_core 32 false 3 [] (fresh_sim 2 0)
      = outcome.thrown trap_t.illegal_instruction
          (stepped late_trapping_core 1 100 false
            (batch_upto late_trapping_core 100 false 1
              (after_batches late_trapping_core 100 false 1 (fresh_sim 2 0)))) ∧
    (stepped late_trapping_core 1 100 false
        (batch_upto late_trapping_core 100 false 1
          (after_batches late_trapping_core 100 false 1 (fresh_sim 2 0)))).calls
      = round_calls 2 100 false ++ round_calls 2 100 false :=
  ⟨(C14_headless_run_does_not_catch late_trapping_core 32 []).2.2.1 (fresh_sim 2 0) 1 1 3
      trap_t.illegal_instruction (by decide) (by decide) (by decide) (by decide) (by decide),
   by decide⟩


/-! ## Reading back the decimal text of a value -/

theorem strtol_digits_dec (v : Nat) :
    ∀ (k acc : Nat),
      strtol_digits 10 (decimal_text k v) acc = acc * 10 ^ k + v % 10 ^ k := by
  intro k
  induction k with
  | zero => intro acc; simp [decimal_text, strtol_digits, Nat.mod_one]
  | succ k ih =>
    intro acc
    have hd : v / 10 ^ k % 10 < 10 := Nat.mod_lt _ (by decide)
    have hv := (hex_digit_facts _ (by omega : v / 10 ^ k % 10 < 16)).1
    have hsplit : decimal_text (k + 1) v
        = hex_digit (v / 10 ^ k % 10) :: decimal_text k v := by
      simp only [decimal_text]
      rw [List.range_succ, List.reverse_append, List.reverse_singleton, List.singleton_append,
        List.map_cons]
    rw [hsplit, strtol_digits, hv]
    simp only [hd, if_true]
    rw [ih, Nat.mod_pow_succ, Nat.pow_succ]
    ring

theorem strtol_skip_0x_base10 (l : List Char) : strtol_skip_0x 10 l = l := by
  unfold strtol_skip_0x
  split
  · rw [if_neg]
    rintro ⟨h, _⟩
    exact absurd h (by decide)
  · rfl

/-- For every value below `2^31`, `atoi` reads the decimal text of the
value, written with any number of digits that holds it, as the value. -/
theorem atoi_decimal_text (k v : Nat) (hk : v < 10 ^ k) (hv : v < 2 ^ 31) :
    atoi (decimal_text k v) = (v : Int) := by
  have hmod : v % 10 ^ k = v := Nat.mod_eq_of_lt hk
  have hdigits := strtol_digits_dec v k 0
  rw [hmod, Nat.zero_mul, Nat.zero_add] at hdigits
  have hstr : strtol (decimal_text k v) 10 = (v : Int) := by
    cases k with
    | zero =>
      have h0 : v = 0 := by simpa using hk
      subst h0
      decide
    | succ k =>
      have hd : v / 10 ^ k % 10 < 16 := by
        have := Nat.mod_lt (v / 10 ^ k) (by decide : 0 < 10)
        omega
      obtain ⟨_, hs, hm, hp, _, _⟩ := hex_digit_facts _ hd
      have hsplit : decimal_text (k + 1) v
          = hex_digit (v / 10 ^ k % 10) :: decimal_text k v := by
        simp only [decimal_text]
        rw [List.range_succ, List.reverse_append, List.reverse_singleton,
          List.singleton_append, List.map_cons]
      have hdrop : (decimal_text (k + 1) v).dropWhile isspace = decimal_text (k + 1) v := by
        rw [hsplit, List.dropWhile_cons_of_neg (by rw [hs]; decide)]
      have hsign : strtol_sign (decimal_text (k + 1) v) = (false, decimal_text (k + 1) v) := by
        rw [hsplit]
        simp only [strtol_sign, if_neg hm, if_neg hp]
      simp only [strtol, hdrop, hsign, strtol_skip_0x_base10, hdigits, Bool.false_eq_true,
        if_false, LONG_MAX]
      omega
  simp only [atoi, hstr, to_int]
  omega


/-! ## C12: the commands `rp` and `rps` -/

theorem funcs_rp (cm : core_model) (NGPR fuel : Nat) :
    funcs cm NGPR fuel ['r', 'p'] = some (interactive_run_proc_noisy cm fuel) := rfl

theorem funcs_rps (cm : core_model) (NGPR fuel : Nat) :
    funcs cm NGPR fuel ['r', 'p', 's'] = some (interactive_run_proc_silent cm fuel) := rfl

/-- C12, counterexample: the count `c = 2147483648 = 2^31` is not negative,
but `atoi` reads its text as `-2^31`, which the call converts to the
`size_t` value `2^64 - 2^31`: the command `rp 0 2147483648` issues
`step(18446744071562067968, trace)` on core 0, not `step(c, trace)`. -/
theorem C12_run_proc_count_wraps_at_2_31 :
    decimal_text 10 2147483648 = ['2', '1', '4', '7', '4', '8', '3', '6', '4', '8'] ∧
    atoi (decimal_text 10 2147483648) = -2147483648 ∧
    run_iteration stub_core 32 2 true
        ['r', 'p', ' ', '0', ' ', '2', '1', '4', '7', '4', '8', '3', '6', '4', '8']
        (fresh_sim 1 0)
      = outcome.ret ()
          { procs := [{ id := 0, pc := 18446744071562067968, R := List.replicate 32 0 }],
            mem := [], calls := [{ proc := 0, n := 18446744071562067968, noisy := true }],
            out := [':'] } ∧
    18446744071562067968 ≠ 2147483648 := by
  decide

/-- C12, amended: for every core model, every state with `nprocs` cores
(`nprocs` is an `int`), every core index `p` with `0 <= p < nprocs` and
every count `c` with `0 <= c < 2^31`, both written in decimal, one iteration
of the console on the command `rp p c` (trace on) or `rps p c` (trace off)
issues exactly one step call, `step(c, trace)` on core `p`, and none on any
other core: it returns with core `p` and the memory as that call leaves
them, every other core unchanged and the one call recorded, whether the
call returns or traps. -/
theorem C12_run_proc_steps_only_core_p (cm : core_model) (NGPR fuel : Nat) (line : List Char)
    (cmd : cstring) (noisy : Bool) (kp kc p c : Nat) (core : processor_t) (s : sim_t)
    (hcmd : (cmd = ['r', 'p'] ∧ noisy = true) ∨ (cmd = ['r', 'p', 's'] ∧ noisy = false))
    (htok : strtok_all (c_str (getline line)) []
      = [cmd, decimal_text kp p, decimal_text kc c])
    (hkp : p < 10 ^ kp) (hkc : c < 10 ^ kc) (hc : c < 2 ^ 31)
    (hn : s.procs.length < 2 ^ 31) (hcore : s.procs[p]? = some core) :
    run_iteration cm NGPR fuel true line s
      = outcome.ret ()
          { procs := s.procs.set p (cm.step core s.mem c noisy).1,
            mem := (cm.step core s.mem c noisy).2.1,
            calls := s.calls ++ [{ proc := p, n := c, noisy := noisy }],
            out := s.out ++ [':'] } ∧
    (∀ q, q ≠ p →
      steps_of q (s.calls ++ [{ proc := p, n := c, noisy := noisy }]) = steps_of q s.calls ∧
      (s.procs.set p (cm.step core s.mem c noisy).1)[q]? = s.procs[q]?) := by
  have hplt : p < s.procs.length := by
    by_contra h
    rw [List.getElem?_eq_none (by omega)] at hcore
    cases hcore
  have hp : atoi (decimal_text kp p) = (p : Int) := atoi_decimal_text kp p hkp (by omega)
  have hcc : atoi (decimal_text kc c) = (c : Int) := atoi_decimal_text kc c hkc hc
  have hw : to_word (c : Int) = c := by
    simp only [to_word]
    omega
  constructor
  · have key : interactive_run_proc cm fuel [decimal_text kp p, decimal_text kc c] noisy
          { s with out := s.out ++ [':'] }
        = proc_step cm (p : Int) c noisy { s with out := s.out ++ [':'] } := by
      have hnot : ¬ ((p : Int) ≥ ({ s with out := s.out ++ [':'] } : sim_t).nprocs) := by
        simp only [sim_t.nprocs, ge_iff_le, Nat.cast_le]; omega
      simp only [interactive_run_proc, List.length_cons, List.length_nil, List.getD_cons_zero,
        List.getD_cons_succ, hp, hcc, if_neg hnot, hw]
      simp
    have hstep := proc_step_eq cm p c noisy { s with out := s.out ++ [':'] } core hcore
    rcases hcmd with ⟨h1, h2⟩ | ⟨h1, h2⟩ <;> subst h1 <;> subst h2
    · simp only [run_iteration, Bool.not_true, Bool.false_eq_true, if_false, htok, funcs_rp,
        interactive_run_proc_noisy, key, hstep]
      cases (cm.step core s.mem c true).2.2 <;> rfl
    · simp only [run_iteration, Bool.not_true, Bool.false_eq_true, if_false, htok, funcs_rps,
        interactive_run_proc_silent, key, hstep]
      cases (cm.step core s.mem c false).2.2 <;> rfl
  · intro q hq
    constructor
    · rw [steps_of_append]
      have hz : steps_of q [({ proc := p, n := c, noisy := noisy } : step_call)] = 0 := by
        simp [steps_of, Ne.symm hq]
      rw [hz]; rfl
    · exact List.getElem?_set_ne (Ne.symm hq)

/-- C12, witness: `rp 1 5` on two cores steps core 1 by 5, with trace, and
core 0 not at all; `rps 0 7` steps core 0 by 7, without trace. -/
theorem C12_run_proc_steps_only_core_p_witness :
    run_iteration stub_core 32 0 true ['r', 'p', ' ', '1', ' ', '5'] (fresh_sim 2 0)
      = outcome.ret ()
          { procs := (fresh_sim 2 0).procs.set 1
              (stub_core.step { id := 1, pc := 0, R := List.replicate 32 0 }
                (fresh_sim 2 0).mem 5 true).1,
            mem := (stub_core.step { id := 1, pc := 0, R := List.replicate 32 0 }
                (fresh_sim 2 0).mem 5 true).2.1,
            calls := (fresh_sim 2 0).calls ++ [{ proc := 1, n := 5, noisy := true }],
            out := (fresh_sim 2 0).out ++ [':'] } ∧
    run_iteration stub_core 32 0 true ['r', 'p', 's', ' ', '0', ' ', '7'] (fresh_sim 2 0)
      = outcome.ret ()
          { procs := (fresh_sim 2 0).procs.set 0
              (stub_core.step { id := 0, pc := 0, R := List.replicate 32 0 }
                (fresh_sim 2 0).mem 7 false).1,
            mem := (stub_core.step { id := 0, pc := 0, R := List.replicate 32 0 }
                (fresh_sim 2 0).mem 7 false).2.1,
            calls := (fresh_sim 2 0).calls ++ [{ proc := 0, n := 7, noisy := false }],
            out := (fresh_sim 2 0).out ++ [':'] } :=
  ⟨(C12_run_proc_steps_only_core_p stub_core 32 0 ['r', 'p', ' ', '1', ' ', '5'] ['r', 'p']
      true 1 1 1 5 { id := 1, pc := 0, R := List.replicate 32 0 } (fresh_sim 2 0)
      (Or.inl ⟨rfl, rfl⟩) (by decide) (by decide) (by decide) (by decide) (by decide)
      (by decide)).1,
   (C12_run_proc_steps_only_core_p stub_core 32 0 ['r', 'p', 's', ' ', '0', ' ', '7']
      ['r', 'p', 's'] false 1 1 0 7 { id := 0, pc := 0, R := List.replicate 32 0 }
      (fresh_sim 2 0) (Or.inr ⟨rfl, rfl⟩) (by decide) (by decide) (by decide) (by decide)
      (by decide) (by decide)).1⟩


/-! ## C11: `interactive_until`, the three subjects -/

theorem counting_after_batches (j : Nat) :
    after_batches counting_core 1 false j (counting_state 0) = counting_state j := by
  induction j with
  | zero => rfl
  | succ j ih =>
    have h1 := counting_round j
    rw [full_round_of_no_trap counting_core 1 false (counting_state j)
      (fun m _ => step_trap_of_returns counting_core (fun _ _ _ _ => rfl) m 1 false _)] at h1
    rw [after_batches, ih]
    simpa using h1

theorem counting_get_reg (j : Nat) :
    get_reg 32 (counting_state j) [['0'], ['3']] = outcome.ret j (counting_state j) := by
  rfl

/-- C11, counterexample: a stub core whose register 3 starts at 0 and
increments by 1 per step, but whose step calls throw: `until reg 0 3
000000ff` issues one step call and ends with the trap, register 3 holding
1; it does not issue `0xff` rounds. -/
theorem C11_until_ends_on_trap_before_target :
    interactive_until counting_trapping_core 32 256
        [['r', 'e', 'g'], ['0'], ['3'], ['0', '0', '0', '0', '0', '0', 'f', 'f']]
        (counting_state 0)
      = outcome.thrown trap_t.illegal_instruction
          { procs := [{ id := 0, pc := 0, R := (List.replicate 32 0).set 3 1 }], mem := [],
            calls := [{ proc := 0, n := 1, noisy := false }], out := [] } ∧
    rounds_calls 1 1 false 255 ≠ [{ proc := 0, n := 1, noisy := false }] := by
  decide

/-- C11, amended: take the arguments `subject args... target` of `until`
(at least three) with subject `reg`, `pc` or `mem` and `rd` the matching
reader `get_reg`, `get_pc` or `get_mem`, `val` the target as `strtol` reads
it in base 16, and a state `s` from which the step calls of the first `k`
single-step rounds return. If the reader, on the arguments between subject
and target, returns a value other than `val` after each of `0, ..., k-1`
rounds and returns `val` after `k` rounds (`k` is the least number of rounds
after which the subject equals the target), then `interactive_until`, given
fuel for `k` rounds, returns in the state after `k` rounds, having issued
exactly `k` rounds of `step(1, false)` on every core (none when `k = 0`). -/
theorem C11_until_issues_exactly_k_rounds (cm : core_model) (NGPR fuel : Nat)
    (args : List cstring) (rd : sim_t → List cstring → outcome Nat) (s : sim_t) (k : Nat)
    (hlen : 3 ≤ args.length)
    (hsubj : (args.getD 0 [] = ['r', 'e', 'g'] ∧ rd = get_reg NGPR) ∨
      (args.getD 0 [] = ['p', 'c'] ∧ rd = get_pc) ∨
      (args.getD 0 [] = ['m', 'e', 'm'] ∧ rd = get_mem))
    (hret : ∀ j, j < k → ∀ m, m < s.procs.length →
      step_trap cm m 1 false (batch_upto cm 1 false m (after_batches cm 1 false j s)) = none)
    (hne : ∀ j, j < k → ∃ v,
      rd (after_batches cm 1 false j s) ((args.drop 1).take (args.length - 2))
        = outcome.ret v (after_batches cm 1 false j s) ∧
      v ≠ to_word (strtol (args.getD (args.length - 1) []) 16))
    (heq : rd (after_batches cm 1 false k s) ((args.drop 1).take (args.length - 2))
      = outcome.ret (to_word (strtol (args.getD (args.length - 1) []) 16))
          (after_batches cm 1 false k s))
    (hfuel : k < fuel) :
    interactive_until cm NGPR fuel args s = outcome.ret () (after_batches cm 1 false k s) ∧
    (after_batches cm 1 false k s).calls = s.calls ++ rounds_calls s.procs.length 1 false k := by
  have hreader : ∀ st a2, until_reader NGPR (args.getD 0 []) a2 st = some (rd st a2) := by
    intro st a2
    rcases hsubj with ⟨h1, h2⟩ | ⟨h1, h2⟩ | ⟨h1, h2⟩ <;> rw [h1, h2] <;> rfl
  have hround : ∀ j, j < k →
      step_round cm 1 false (after_batches cm 1 false j s).procs.length 0
          (after_batches cm 1 false j s)
        = outcome.ret () (after_batches cm 1 false (j + 1) s) := by
    intro j hj
    exact full_round_of_no_trap cm 1 false (after_batches cm 1 false j s)
      (fun m hm => hret j hj m (by rw [after_batches_length] at hm; exact hm))
  refine ⟨?_, (rounds_along cm 1 false (fun j => after_batches cm 1 false j s) k hround).1⟩
  unfold interactive_until
  rw [if_neg (by omega)]
  exact until_loop_polls cm NGPR _ _ _ (fun j => after_batches cm 1 false j s) k hround
    (fun j hj => by
      obtain ⟨v, hv, hvne⟩ := hne j hj
      exact ⟨v, by rw [hreader, hv], hvne⟩)
    (by rw [hreader, heq]) k 0 fuel (by omega) hfuel

/-- C11, witness: with the core whose register 3 counts the steps,
`until reg 0 3 000000ff` returns after exactly `0xff` rounds; with the core
whose program counter counts the steps, `until pc 0 3` returns after 3
rounds; on zeroed memory `until mem 0 0` returns without a round. -/
theorem C11_until_issues_exactly_k_rounds_witness :
    (interactive_until counting_core 32 256
        [['r', 'e', 'g'], ['0'], ['3'], ['0', '0', '0', '0', '0', '0', 'f', 'f']]
        (counting_state 0)
      = outcome.ret () (after_batches counting_core 1 false 255 (counting_state 0)) ∧
     (after_batches counting_core 1 false 255 (counting_state 0)).calls
      = (counting_state 0).calls ++ rounds_calls (counting_state 0).procs.length 1 false 255) ∧
    (interactive_until stub_core 32 4 [['p', 'c'], ['0'], ['3']] (fresh_sim 1 0)
      = outcome.ret () (after_batches stub_core 1 false 3 (fresh_sim 1 0)) ∧
     (after_batches stub_core 1 false 3 (fresh_sim 1 0)).calls
      = (fresh_sim 1 0).calls ++ rounds_calls (fresh_sim 1 0).procs.length 1 false 3) ∧
    (interactive_until stub_core 32 1 [['m', 'e', 'm'], ['0'], ['0']] (fresh_sim 1 16)
      = outcome.ret () (after_batches stub_core 1 false 0 (fresh_sim 1 16)) ∧
     (after_batches stub_core 1 false 0 (fresh_sim 1 16)).calls
      = (fresh_sim 1 16).calls ++ rounds_calls (fresh_sim 1 16).procs.length 1 false 0) :=
  ⟨C11_until_issues_exactly_k_rounds counting_core 32 256
      [['r', 'e', 'g'], ['0'], ['3'], ['0', '0', '0', '0', '0', '0', 'f', 'f']]
      (get_reg 32) (counting_state 0) 255 (by decide) (Or.inl ⟨rfl, rfl⟩)
      (fun j _ m _ => step_trap_of_returns counting_core (fun _ _ _ _ => rfl) m 1 false _)
      (fun j hj => ⟨j, by
        have h : to_word (strtol ['0', '0', '0', '0', '0', '0', 'f', 'f'] 16) = 255 := by decide
        rw [counting_after_batches]
        refine ⟨counting_get_reg j, ?_⟩
        show j ≠ to_word (strtol ['0', '0', '0', '0', '0', '0', 'f', 'f'] 16)
        rw [h]; omega⟩)
      (by
        have h : to_word (strtol ['0', '0', '0', '0', '0', '0', 'f', 'f'] 16) = 255 := by decide
        rw [counting_after_batches]
        show get_reg 32 (counting_state 255) [['0'], ['3']]
          = outcome.ret (to_word (strtol ['0', '0', '0', '0', '0', '0', 'f', 'f'] 16))
              (counting_state 255)
        rw [h]; exact counting_get_reg 255)
      (by decide),
   C11_until_issues_exactly_k_rounds stub_core 32 4 [['p', 'c'], ['0'], ['3']] get_pc
      (fresh_sim 1 0) 3 (by decide) (Or.inr (Or.inl ⟨rfl, rfl⟩))
      (fun j _ m _ => step_trap_of_returns stub_core (fun _ _ _ _ => rfl) m 1 false _)
      (fun j hj => ⟨j, by interval_cases j <;> decide⟩)
      (by decide) (by decide),
   C11_until_issues_exactly_k_rounds stub_core 32 1 [['m', 'e', 'm'], ['0'], ['0']] get_mem
      (fresh_sim 1 16) 0 (by decide) (Or.inr (Or.inr ⟨rfl, rfl⟩))
      (fun j hj => absurd hj (Nat.not_lt_zero j))
      (fun j hj => absurd hj (Nat.not_lt_zero j))
      (by decide) (by decide)⟩


end Sim
